import Mathlib

/-!
# Verification of the vibe-learning-python-backend content pipeline

Shallow embedding of the repository's core logic:
* `src/utils.py` — the `format_text` normalization utility,
* `src/pdf_parser.py` — the PDF extraction pipeline (`PDFTextExtractor`,
  `process_pdf_file`),
* `src/app.py` — the upload / delete / youtube handlers and their
  filesystem effects (modelled as explicit state),
* `src/youtube_transcript.py` — video-id extraction and transcript
  concatenation.

Python strings are modelled as `List Char` (Lean `Char` is a Unicode scalar
value, matching Python's code-point view; `len` = `List.length`).
-/

namespace VibeLearning

/-! ## Python string primitives -/

/-- The set of characters Python treats as whitespace (`str.isspace`,
which is also the character class of `\s` in `re` for `str` patterns and
the set stripped by `str.strip()` / split on by `str.split()`). -/
def pyWS (c : Char) : Bool :=
  c = ' ' || ('\u0009' ≤ c && c ≤ '\u000d') || ('\u001c' ≤ c && c ≤ '\u001f') ||
  c = '\u0085' || c = ' ' || c = ' ' ||
  (' ' ≤ c && c ≤ ' ') || c = ' ' || c = ' ' ||
  c = ' ' || c = ' ' || c = '　'

/-- Python `s.replace(old, new)` for a single-character `old`:
left-to-right, non-overlapping. -/
def replace1 (k : Char) (w : List Char) : List Char → List Char
  | [] => []
  | c :: cs => if c = k then w ++ replace1 k w cs else c :: replace1 k w cs

/-- Python `s.replace(old, new)` for a two-character `old = [a, b]`:
left-to-right, non-overlapping (after a match the scan resumes past it). -/
def replace2 (a b : Char) (w : List Char) : List Char → List Char
  | [] => []
  | [c] => [c]
  | c :: d :: cs =>
    if c = a ∧ d = b then w ++ replace2 a b w cs
    else c :: replace2 a b w (d :: cs)

/-- `re.sub(r'[^\x00-\x7F]+', ' ', text)`: each maximal run of
non-ASCII characters becomes a single space.  The boolean argument records
whether the previous character was part of a non-ASCII run. -/
def deAsciiAux : Bool → List Char → List Char
  | _, [] => []
  | prev, c :: cs =>
    if c.toNat ≤ 127 then c :: deAsciiAux false cs
    else if prev then deAsciiAux true cs
    else ' ' :: deAsciiAux true cs

def deAscii (s : List Char) : List Char := deAsciiAux false s

/-- `re.sub(r' +', ' ', text)`: each maximal run of spaces becomes a single
space. -/
def collapseSpAux : Bool → List Char → List Char
  | _, [] => []
  | prev, c :: cs =>
    if c = ' ' then
      if prev then collapseSpAux true cs else ' ' :: collapseSpAux true cs
    else c :: collapseSpAux false cs

def collapseSp (s : List Char) : List Char := collapseSpAux false s

/-- The part of a character list after its last newline (the whole list if
it has none). -/
def afterLastNL (l : List Char) : List Char :=
  (l.reverse.takeWhile (fun c => c ≠ '\n')).reverse

/-- `re.sub(r'\n\s*\n\s*\n+', '\n\n', text)`.  A match starts at a newline
whose maximal whitespace block contains at least three newlines; greedy
matching with backtracking makes the match extend exactly to the last
newline of that block, so the block's trailing non-newline whitespace is
kept and scanning resumes after the block (whose remainder contains no
newline, hence no further match before the block ends). -/
def collapseNL : List Char → List Char
  | [] => []
  | c :: cs =>
    if c = '\n' ∧ 3 ≤ ((c :: cs).takeWhile pyWS).count '\n' then
      '\n' :: '\n' ::
        (afterLastNL ((c :: cs).takeWhile pyWS) ++ collapseNL (cs.dropWhile pyWS))
    else
      c :: collapseNL cs
termination_by s => s.length
decreasing_by
  · simp only [List.length_cons]
    exact Nat.lt_succ_of_le (List.dropWhile_suffix pyWS).length_le
  · simp

/-- Python `str.strip()` of the trailing whitespace. -/
def dropTrailWS (l : List Char) : List Char := (l.reverse.dropWhile pyWS).reverse

/-- Python `str.strip()`. -/
def stripChars (l : List Char) : List Char := dropTrailWS (l.dropWhile pyWS)

/-- Python `text.split('\n')`. -/
def splitNL : List Char → List (List Char)
  | [] => [[]]
  | c :: cs =>
    if c = '\n' then [] :: splitNL cs
    else
      match splitNL cs with
      | [] => [[c]]
      | l :: ls => (c :: l) :: ls

/-- Python `'\n'.join(lines)`. -/
def joinNL : List (List Char) → List Char
  | [] => []
  | [l] => l
  | l :: l2 :: ls => l ++ '\n' :: joinNL (l2 :: ls)

/-- The `while cleaned_lines and not cleaned_lines[0]: pop(0)` loop. -/
def dropLeadE : List (List Char) → List (List Char)
  | [] => []
  | l :: ls => if l = [] then dropLeadE ls else l :: ls

/-- Both `while` loops of `format_text`: drop empty lines at the beginning
and at the end. -/
def dropEnds (ls : List (List Char)) : List (List Char) :=
  (dropLeadE (dropLeadE ls).reverse).reverse

/-- The `unicode_replacements` dict of `format_text`, in insertion order
(Python dicts iterate in insertion order). -/
def uniTable : List (Char × List Char) :=
  [('–', ['-']), ('—', ['-', '-']), ('‘', ['\'']),
   ('’', ['\'']), ('“', ['\x22']), ('”', ['\x22']),
   ('•', ['•']), (' ', [' ']), ('…', ['.', '.', '.']),
   ('é', ['e']), ('í', ['i']), ('ó', ['o']),
   ('ú', ['u']), ('á', ['a']), ('Á', ['A']),
   ('É', ['E']), ('Í', ['I']), ('Ó', ['O']),
   ('Ú', ['U']), ('ł', ['l']), ('↗', ['^']),
   ('∗', ['*']), ('†', ['+']), ('·', ['·'])]

/-- The three escape-sequence replacements of `format_text`. -/
def ftEsc (s : List Char) : List Char :=
  replace2 '\\' 'r' ['\r'] (replace2 '\\' 't' ['\t'] (replace2 '\\' 'n' ['\n'] s))

/-- The `unicode_replacements` loop of `format_text`. -/
def ftUni (s : List Char) : List Char :=
  uniTable.foldl (fun acc kv => replace1 kv.1 kv.2 acc) s

/-- Lines post-processing of `format_text`: split on newlines, strip each
line, drop leading and trailing empty lines. -/
def ftLines (s : List Char) : List (List Char) :=
  dropEnds ((splitNL s).map stripChars)

/-- `format_text` from `src/utils.py`, on character lists. -/
def ftCore (s : List Char) : List Char :=
  if s = [] then s
  else joinNL (ftLines (collapseNL (collapseSp (deAscii (ftUni (ftEsc s))))))

/-- `format_text` from `src/utils.py`. -/
def format_text (t : String) : String := String.mk (ftCore t.data)

/-! ## Invariants for the idempotence proof of `format_text` -/

/-- `NP a b s`: the two-character sequence `a, b` never occurs (adjacently)
in `s`. -/
abbrev NP (a b : Char) (s : List Char) : Prop :=
  List.Chain' (fun x y => ¬(x = a ∧ y = b)) s

/-- Every character is ASCII. -/
abbrev allAscii (s : List Char) : Prop := ∀ c ∈ s, c.toNat ≤ 127

theorem replace2_cons₂ (a b : Char) (w : List Char) (c d : Char) (cs : List Char) :
    replace2 a b w (c :: d :: cs) =
      if c = a ∧ d = b then w ++ replace2 a b w cs
      else c :: replace2 a b w (d :: cs) := rfl

theorem replace2_id {a b : Char} (w : List Char) :
    ∀ s : List Char, NP a b s → replace2 a b w s = s := by
  intro s
  induction s with
  | nil => exact fun _ => rfl
  | cons c cs ih =>
    intro h
    cases cs with
    | nil => rfl
    | cons d cs' =>
      have h1 := (List.chain'_cons.mp h).1
      have h2 := (List.chain'_cons.mp h).2
      rw [replace2_cons₂, if_neg h1, ih h2]

theorem replace1_id {k : Char} (w : List Char) :
    ∀ s : List Char, k ∉ s → replace1 k w s = s := by
  intro s
  induction s with
  | nil => exact fun _ => rfl
  | cons c cs ih =>
    intro h
    simp only [List.mem_cons, not_or] at h
    have hck : ¬ c = k := fun e => h.1 e.symm
    simp [replace1, hck, ih h.2]

theorem replace2_head (p q m : Char) (s : List Char) :
    (replace2 p q [m] s).head? = s.head? ∨ (replace2 p q [m] s).head? = some m := by
  match s with
  | [] => exact Or.inl rfl
  | [c] => exact Or.inl rfl
  | c :: d :: cs =>
    rw [replace2_cons₂]
    by_cases h : c = p ∧ d = q
    · rw [if_pos h]; exact Or.inr rfl
    · rw [if_neg h]; exact Or.inl rfl

theorem replace2_kill {a b x : Char} (hxa : x ≠ a) (hxb : x ≠ b) (s : List Char) :
    NP a b (replace2 a b [x] s) := by
  suffices H : ∀ n t, List.length t ≤ n → NP a b (replace2 a b [x] t) from
    H s.length s le_rfl
  intro n
  induction n with
  | zero =>
    intro t ht
    have : t = [] := List.length_eq_zero.mp (Nat.le_zero.mp ht)
    subst this; exact List.chain'_nil
  | succ n ih =>
    intro t ht
    match t with
    | [] => exact List.chain'_nil
    | [c] => exact List.chain'_singleton c
    | c :: d :: cs =>
      simp only [List.length_cons] at ht
      rw [replace2_cons₂]
      by_cases h : c = a ∧ d = b
      · rw [if_pos h]
        refine List.chain'_cons'.mpr ⟨fun y _ hc => hxa hc.1, ih cs (by omega)⟩
      · rw [if_neg h]
        refine List.chain'_cons'.mpr ⟨?_, ?_⟩
        · intro y hy
          rcases replace2_head a b x (d :: cs) with he | he
          · rw [he] at hy
            simp only [List.head?_cons, Option.mem_def, Option.some.injEq] at hy
            exact fun hc => h ⟨hc.1, hy ▸ hc.2⟩
          · rw [he] at hy
            simp only [Option.mem_def, Option.some.injEq] at hy
            exact fun hc => hxb (hy ▸ hc.2)
        · exact ih (d :: cs) (by simp; omega)

theorem replace2_pres {a b p q m : Char} (hma : m ≠ a) (hmb : m ≠ b) :
    ∀ s, NP a b s → NP a b (replace2 p q [m] s) := by
  suffices H : ∀ n t, List.length t ≤ n → NP a b t → NP a b (replace2 p q [m] t) from
    fun s => H s.length s le_rfl
  intro n
  induction n with
  | zero =>
    intro t ht _
    have : t = [] := List.length_eq_zero.mp (Nat.le_zero.mp ht)
    subst this; exact List.chain'_nil
  | succ n ih =>
    intro t ht hnp
    match t with
    | [] => exact List.chain'_nil
    | [c] => exact List.chain'_singleton c
    | c :: d :: cs =>
      simp only [List.length_cons] at ht
      rw [replace2_cons₂]
      by_cases h : c = p ∧ d = q
      · rw [if_pos h]
        refine List.chain'_cons'.mpr
          ⟨fun y _ hc => hma hc.1, ih cs (by omega) ((List.chain'_cons.mp hnp).2.tail)⟩
      · rw [if_neg h]
        refine List.chain'_cons'.mpr ⟨?_, ?_⟩
        · intro y hy
          rcases replace2_head p q m (d :: cs) with he | he
          · rw [he] at hy
            simp only [List.head?_cons, Option.mem_def, Option.some.injEq] at hy
            exact fun hc => (List.chain'_cons.mp hnp).1 ⟨hc.1, hy ▸ hc.2⟩
          · rw [he] at hy
            simp only [Option.mem_def, Option.some.injEq] at hy
            exact fun hc => hmb (hy ▸ hc.2)
        · exact ih (d :: cs) (by simp; omega) (List.chain'_cons.mp hnp).2

theorem NP_of_forall_ne {a b : Char} {w : List Char} (hw : ∀ m ∈ w, m ≠ a) :
    NP a b w := by
  induction w with
  | nil => exact List.chain'_nil
  | cons c cs ih =>
    exact List.chain'_cons'.mpr ⟨fun y _ hc => hw c (List.mem_cons_self c cs) hc.1,
      ih (fun m hm => hw m (List.mem_cons_of_mem c hm))⟩

theorem replace1_head_mem {k : Char} {w : List Char} (hw : w ≠ []) :
    ∀ (t : List Char) (y : Char), (replace1 k w t).head? = some y →
      t.head? = some y ∨ y ∈ w := by
  intro t y h
  match t with
  | [] => exact absurd h (by simp [replace1])
  | e :: es =>
    by_cases he : e = k
    · rw [show replace1 k w (e :: es) = w ++ replace1 k w es by simp [replace1, he]] at h
      cases w with
      | nil => exact absurd rfl hw
      | cons m ms =>
        simp only [List.cons_append, List.head?_cons, Option.some.injEq] at h
        exact Or.inr (h ▸ List.mem_cons_self m ms)
    · rw [show replace1 k w (e :: es) = e :: replace1 k w es by simp [replace1, he]] at h
      simp only [List.head?_cons, Option.some.injEq] at h
      exact Or.inl (by simp [h])

theorem replace1_pres {a b k : Char} {w : List Char} (hw : w ≠ [])
    (hwab : ∀ m ∈ w, m ≠ a ∧ m ≠ b) :
    ∀ s, NP a b s → NP a b (replace1 k w s) := by
  intro s
  induction s with
  | nil => exact fun _ => List.chain'_nil
  | cons c cs ih =>
    intro h
    by_cases hc : c = k
    · rw [show replace1 k w (c :: cs) = w ++ replace1 k w cs by simp [replace1, hc]]
      refine List.chain'_append.mpr
        ⟨NP_of_forall_ne (fun m hm => (hwab m hm).1), ih h.tail, ?_⟩
      intro x hx y _
      exact fun hp => (hwab x (List.mem_of_mem_getLast? hx)).1 hp.1
    · rw [show replace1 k w (c :: cs) = c :: replace1 k w cs by simp [replace1, hc]]
      refine List.chain'_cons'.mpr ⟨?_, ?_⟩
      · intro y hy
        rcases replace1_head_mem hw cs y hy with h1 | h1
        · exact fun hp => (List.chain'_cons'.mp h).1 y h1 hp
        · exact fun hp => (hwab y h1).2 hp.2
      · exact ih h.tail

/-! ### ftUni lemmas -/

theorem ftUni_fold_pres {a b : Char} :
    ∀ (tab : List (Char × List Char)) (s : List Char),
      (∀ kv ∈ tab, kv.2 ≠ [] ∧ ∀ m ∈ kv.2, m ≠ a ∧ m ≠ b) → NP a b s →
      NP a b (tab.foldl (fun acc kv => replace1 kv.1 kv.2 acc) s) := by
  intro tab
  induction tab with
  | nil => exact fun s _ h => h
  | cons kv tab ih =>
    intro s htab h
    simp only [List.foldl_cons]
    exact ih _ (fun x hx => htab x (List.mem_cons_of_mem kv hx))
      (replace1_pres (htab kv (List.mem_cons_self kv tab)).1
        (htab kv (List.mem_cons_self kv tab)).2 s h)

theorem ftUni_fold_id :
    ∀ (tab : List (Char × List Char)) (s : List Char),
      (∀ kv ∈ tab, 127 < kv.1.toNat) → allAscii s →
      tab.foldl (fun acc kv => replace1 kv.1 kv.2 acc) s = s := by
  intro tab
  induction tab with
  | nil => intro s _ _; rfl
  | cons kv tab ih =>
    intro s htab ha
    simp only [List.foldl_cons]
    have hk : kv.1 ∉ s := fun hm => by
      have h1 := ha kv.1 hm
      have h2 := htab kv (List.mem_cons_self kv tab)
      omega
    rw [replace1_id kv.2 s hk]
    exact ih s (fun x hx => htab x (List.mem_cons_of_mem kv hx)) ha

set_option maxHeartbeats 2000000 in
theorem uniTable_keys_nonascii : ∀ kv ∈ uniTable, 127 < kv.1.toNat := by decide

set_option maxHeartbeats 2000000 in
theorem uniTable_vals_bsn :
    ∀ kv ∈ uniTable, kv.2 ≠ [] ∧ ∀ m ∈ kv.2, m ≠ '\\' ∧ m ≠ 'n' := by decide

set_option maxHeartbeats 2000000 in
theorem uniTable_vals_bst :
    ∀ kv ∈ uniTable, kv.2 ≠ [] ∧ ∀ m ∈ kv.2, m ≠ '\\' ∧ m ≠ 't' := by decide

set_option maxHeartbeats 2000000 in
theorem uniTable_vals_bsr :
    ∀ kv ∈ uniTable, kv.2 ≠ [] ∧ ∀ m ∈ kv.2, m ≠ '\\' ∧ m ≠ 'r' := by decide

attribute [irreducible] uniTable

theorem ftUni_id {s : List Char} (h : allAscii s) : ftUni s = s := by
  unfold ftUni
  exact ftUni_fold_id uniTable s uniTable_keys_nonascii h

theorem ftUni_pres {a b : Char}
    (htab : ∀ kv ∈ uniTable, kv.2 ≠ [] ∧ ∀ m ∈ kv.2, m ≠ a ∧ m ≠ b)
    {s : List Char} (h : NP a b s) : NP a b (ftUni s) := by
  unfold ftUni
  exact ftUni_fold_pres uniTable s htab h

/-! ### deAscii lemmas -/

theorem deAsciiAux_id {s : List Char} (h : allAscii s) : ∀ p, deAsciiAux p s = s := by
  induction s with
  | nil => intro _; rfl
  | cons c cs ih =>
    intro p
    have hc : c.toNat ≤ 127 := h c (List.mem_cons_self c cs)
    simp [deAsciiAux, hc, ih (fun x hx => h x (List.mem_cons_of_mem c hx)) false]

theorem deAscii_id {s : List Char} (h : allAscii s) : deAscii s = s :=
  deAsciiAux_id h false

theorem deAsciiAux_ascii : ∀ (s : List Char) (p : Bool), allAscii (deAsciiAux p s) := by
  intro s
  induction s with
  | nil => intro p c hc; simp [deAsciiAux] at hc
  | cons c cs ih =>
    intro p x hx
    by_cases hc : c.toNat ≤ 127
    · rw [show deAsciiAux p (c :: cs) = c :: deAsciiAux false cs by
        cases p <;> simp [deAsciiAux, hc]] at hx
      rcases List.mem_cons.mp hx with h | h
      · exact h ▸ hc
      · exact ih false x h
    · cases p with
      | true =>
        rw [show deAsciiAux true (c :: cs) = deAsciiAux true cs by
          simp [deAsciiAux, hc]] at hx
        exact ih true x hx
      | false =>
        rw [show deAsciiAux false (c :: cs) = ' ' :: deAsciiAux true cs by
          simp [deAsciiAux, hc]] at hx
        rcases List.mem_cons.mp hx with h | h
        · subst h; decide
        · exact ih true x h

theorem deAscii_ascii (s : List Char) : allAscii (deAscii s) := deAsciiAux_ascii s false

theorem deAsciiAux_head_false {s : List Char} {y : Char}
    (h : (deAsciiAux false s).head? = some y) : y = ' ' ∨ s.head? = some y := by
  match s with
  | [] => exact absurd h (by simp [deAsciiAux])
  | c :: cs =>
    by_cases hc : c.toNat ≤ 127
    · rw [show deAsciiAux false (c :: cs) = c :: deAsciiAux false cs by
        simp [deAsciiAux, hc]] at h
      exact Or.inr (by simpa using h)
    · rw [show deAsciiAux false (c :: cs) = ' ' :: deAsciiAux true cs by
        simp [deAsciiAux, hc]] at h
      exact Or.inl (by simpa using h.symm)

theorem deAsciiAux_pres {a b : Char} (ha : a ≠ ' ') (hb : b ≠ ' ') :
    ∀ (s : List Char) (p : Bool), NP a b s → NP a b (deAsciiAux p s) := by
  intro s
  induction s with
  | nil => intro p _; exact List.chain'_nil
  | cons c cs ih =>
    intro p h
    by_cases hc : c.toNat ≤ 127
    · rw [show deAsciiAux p (c :: cs) = c :: deAsciiAux false cs by
        cases p <;> simp [deAsciiAux, hc]]
      refine List.chain'_cons'.mpr ⟨?_, ih false h.tail⟩
      intro y hy
      rcases deAsciiAux_head_false hy with h1 | h1
      · exact fun hp => hb (hp.2.symm.trans h1)
      · exact fun hp => (List.chain'_cons'.mp h).1 y h1 hp
    · cases p with
      | true =>
        rw [show deAsciiAux true (c :: cs) = deAsciiAux true cs by simp [deAsciiAux, hc]]
        exact ih true h.tail
      | false =>
        rw [show deAsciiAux false (c :: cs) = ' ' :: deAsciiAux true cs by
          simp [deAsciiAux, hc]]
        refine List.chain'_cons'.mpr ⟨fun y _ hp => ha hp.1.symm, ih true h.tail⟩

theorem deAscii_pres {a b : Char} (ha : a ≠ ' ') (hb : b ≠ ' ')
    {s : List Char} (h : NP a b s) : NP a b (deAscii s) :=
  deAsciiAux_pres ha hb s false h

/-! ### collapseSp lemmas -/

theorem collapseSpAux_head_false {s : List Char} :
    (collapseSpAux false s).head? = s.head? := by
  match s with
  | [] => rfl
  | c :: cs =>
    by_cases hc : c = ' '
    · subst hc; simp [collapseSpAux]
    · simp [collapseSpAux, hc]

theorem collapseSpAux_head_true {s : List Char} {y : Char}
    (h : (collapseSpAux true s).head? = some y) : y ≠ ' ' := by
  induction s with
  | nil => exact absurd h (by simp [collapseSpAux])
  | cons c cs ih =>
    by_cases hc : c = ' '
    · subst hc
      rw [show collapseSpAux true (' ' :: cs) = collapseSpAux true cs by
        simp [collapseSpAux]] at h
      exact ih h
    · rw [show collapseSpAux true (c :: cs) = c :: collapseSpAux false cs by
        simp [collapseSpAux, hc]] at h
      simp only [List.head?_cons, Option.some.injEq] at h
      exact h ▸ hc

theorem collapseSpAux_kill : ∀ (s : List Char) (p : Bool), NP ' ' ' ' (collapseSpAux p s) := by
  intro s
  induction s with
  | nil => intro p; exact List.chain'_nil
  | cons c cs ih =>
    intro p
    by_cases hc : c = ' '
    · subst hc
      cases p with
      | true =>
        rw [show collapseSpAux true (' ' :: cs) = collapseSpAux true cs by
          simp [collapseSpAux]]
        exact ih true
      | false =>
        rw [show collapseSpAux false (' ' :: cs) = ' ' :: collapseSpAux true cs by
          simp [collapseSpAux]]
        refine List.chain'_cons'.mpr ⟨?_, ih true⟩
        intro y hy hp
        exact collapseSpAux_head_true hy hp.2
    · rw [show collapseSpAux p (c :: cs) = c :: collapseSpAux false cs by
        cases p <;> simp [collapseSpAux, hc]]
      refine List.chain'_cons'.mpr ⟨fun y _ hp => hc hp.1, ih false⟩

theorem collapseSp_kill (s : List Char) : NP ' ' ' ' (collapseSp s) :=
  collapseSpAux_kill s false

theorem collapseSpAux_pres {a b : Char} (ha : a ≠ ' ') (hb : b ≠ ' ') :
    ∀ (s : List Char) (p : Bool), NP a b s → NP a b (collapseSpAux p s) := by
  intro s
  induction s with
  | nil => intro p _; exact List.chain'_nil
  | cons c cs ih =>
    intro p h
    by_cases hc : c = ' '
    · subst hc
      cases p with
      | true =>
        rw [show collapseSpAux true (' ' :: cs) = collapseSpAux true cs by
          simp [collapseSpAux]]
        exact ih true h.tail
      | false =>
        rw [show collapseSpAux false (' ' :: cs) = ' ' :: collapseSpAux true cs by
          simp [collapseSpAux]]
        refine List.chain'_cons'.mpr ⟨fun y _ hp => ha hp.1.symm, ih true h.tail⟩
    · rw [show collapseSpAux p (c :: cs) = c :: collapseSpAux false cs by
        cases p <;> simp [collapseSpAux, hc]]
      refine List.chain'_cons'.mpr ⟨?_, ih false h.tail⟩
      intro y hy
      rw [collapseSpAux_head_false] at hy
      exact fun hp => (List.chain'_cons'.mp h).1 y hy hp

theorem collapseSp_pres {a b : Char} (ha : a ≠ ' ') (hb : b ≠ ' ')
    {s : List Char} (h : NP a b s) : NP a b (collapseSp s) :=
  collapseSpAux_pres ha hb s false h

theorem collapseSpAux_id_aux : ∀ s : List Char, NP ' ' ' ' s →
    collapseSpAux false s = s ∧
      ((∀ y, s.head? = some y → y ≠ ' ') → collapseSpAux true s = s) := by
  intro s
  induction s with
  | nil => exact fun _ => ⟨rfl, fun _ => rfl⟩
  | cons c cs ih =>
    intro h
    obtain ⟨ihf, iht⟩ := ih h.tail
    by_cases hc : c = ' '
    · subst hc
      constructor
      · rw [show collapseSpAux false (' ' :: cs) = ' ' :: collapseSpAux true cs by
          simp [collapseSpAux]]
        have : collapseSpAux true cs = cs := by
          apply iht
          intro y hy hsp
          exact (List.chain'_cons'.mp h).1 y hy ⟨rfl, hsp⟩
        rw [this]
      · intro hcond
        exact absurd rfl (hcond ' ' (by simp))
    · constructor
      · rw [show collapseSpAux false (c :: cs) = c :: collapseSpAux false cs by
          simp [collapseSpAux, hc], ihf]
      · intro _
        rw [show collapseSpAux true (c :: cs) = c :: collapseSpAux false cs by
          simp [collapseSpAux, hc], ihf]

theorem collapseSp_id {s : List Char} (h : NP ' ' ' ' s) : collapseSp s = s :=
  (collapseSpAux_id_aux s h).1

theorem collapseSpAux_ascii : ∀ (s : List Char) (p : Bool),
    allAscii s → allAscii (collapseSpAux p s) := by
  intro s
  induction s with
  | nil => intro p _ c hc; simp [collapseSpAux] at hc
  | cons c cs ih =>
    intro p ha x hx
    have ha1 : allAscii cs := fun m hm => ha m (List.mem_cons_of_mem c hm)
    by_cases hc : c = ' '
    · subst hc
      cases p with
      | true =>
        rw [show collapseSpAux true (' ' :: cs) = collapseSpAux true cs by
          simp [collapseSpAux]] at hx
        exact ih true ha1 x hx
      | false =>
        rw [show collapseSpAux false (' ' :: cs) = ' ' :: collapseSpAux true cs by
          simp [collapseSpAux]] at hx
        rcases List.mem_cons.mp hx with h1 | h1
        · subst h1; decide
        · exact ih true ha1 x h1
    · rw [show collapseSpAux p (c :: cs) = c :: collapseSpAux false cs by
        cases p <;> simp [collapseSpAux, hc]] at hx
      rcases List.mem_cons.mp hx with h1 | h1
      · exact h1 ▸ ha c (List.mem_cons_self c cs)
      · exact ih false ha1 x h1

theorem collapseSp_ascii {s : List Char} (h : allAscii s) : allAscii (collapseSp s) :=
  collapseSpAux_ascii s false h


/-! ### collapseNL lemmas -/

theorem pyWS_nl : pyWS '\n' = true := by decide

theorem collapseNL_nil : collapseNL [] = [] := by rw [collapseNL]

theorem collapseNL_cons_pos {c : Char} {cs : List Char}
    (h : c = '\n' ∧ 3 ≤ (((c :: cs).takeWhile pyWS).count '\n')) :
    collapseNL (c :: cs) =
      '\n' :: '\n' ::
        (afterLastNL ((c :: cs).takeWhile pyWS) ++ collapseNL (cs.dropWhile pyWS)) := by
  rw [collapseNL, if_pos h]

theorem collapseNL_cons_neg {c : Char} {cs : List Char}
    (h : ¬(c = '\n' ∧ 3 ≤ (((c :: cs).takeWhile pyWS).count '\n'))) :
    collapseNL (c :: cs) = c :: collapseNL cs := by
  rw [collapseNL, if_neg h]

theorem collapseNL_append_no_nl {l : List Char} (hl : '\n' ∉ l) :
    ∀ r, collapseNL (l ++ r) = l ++ collapseNL r := by
  induction l with
  | nil => intro r; rfl
  | cons c l' ih =>
    intro r
    have hc : c ≠ '\n' := fun e => hl (e ▸ List.mem_cons_self c l')
    rw [List.cons_append, collapseNL_cons_neg (fun hp => hc hp.1),
      ih (fun m => hl (List.mem_cons_of_mem c m)) r, List.cons_append]

theorem collapseNL_head_not_ws {d : Char} {t : List Char} (hd : pyWS d = false) :
    (collapseNL (d :: t)).head? = some d := by
  have hdn : d ≠ '\n' := fun e => by rw [e, pyWS_nl] at hd; exact Bool.noConfusion hd
  rw [collapseNL_cons_neg (fun hp => hdn hp.1)]
  rfl

theorem dropWhile_head_false {p : Char → Bool} :
    ∀ {l : List Char} {x : Char} {xs : List Char}, l.dropWhile p = x :: xs → p x = false := by
  intro l
  induction l with
  | nil => intro x xs h; exact absurd h (by simp)
  | cons c cs ih =>
    intro x xs h
    by_cases hc : p c
    · rw [List.dropWhile_cons_of_pos hc] at h
      exact ih h
    · rw [List.dropWhile_cons_of_neg hc] at h
      obtain ⟨h1, _⟩ := List.cons.injEq .. ▸ h
      injection h with h1 _
      exact h1 ▸ (Bool.not_eq_true _).mp hc

theorem takeWhile_collapseNL_dropWhile (s : List Char) :
    ((collapseNL (s.dropWhile pyWS)).takeWhile pyWS) = [] := by
  cases hd : s.dropWhile pyWS with
  | nil => rw [collapseNL_nil]; rfl
  | cons x xs =>
    have hx : pyWS x = false := dropWhile_head_false hd
    have hxn : x ≠ '\n' := fun e => by rw [e, pyWS_nl] at hx; exact Bool.noConfusion hx
    rw [collapseNL_cons_neg (fun hp => hxn hp.1)]
    simp [List.takeWhile_cons, hx]

theorem takeWhile_append_all {p : Char → Bool} {w : List Char}
    (hw : ∀ x ∈ w, p x) : ∀ z, (w ++ z).takeWhile p = w ++ z.takeWhile p := by
  induction w with
  | nil => intro z; rfl
  | cons c w' ih =>
    intro z
    rw [List.cons_append, List.takeWhile_cons_of_pos (hw c (List.mem_cons_self c w')),
      ih (fun x hx => hw x (List.mem_cons_of_mem c hx)) z, List.cons_append]

theorem afterLastNL_no_nl (l : List Char) : '\n' ∉ afterLastNL l := by
  intro hm
  unfold afterLastNL at hm
  rw [List.mem_reverse] at hm
  have := List.takeWhile_subset (fun c => decide (c ≠ '\n')) hm
  have h2 := List.mem_takeWhile_imp hm
  simp at h2

theorem afterLastNL_subset {l : List Char} {x : Char} (hx : x ∈ afterLastNL l) : x ∈ l := by
  unfold afterLastNL at hx
  rw [List.mem_reverse] at hx
  have := List.mem_takeWhile_imp hx
  exact List.mem_reverse.mp (List.takeWhile_subset _ hx)

theorem collapseNL_block {s : List Char}
    (h : ((s.takeWhile pyWS).count '\n') ≤ 2) :
    collapseNL s = s.takeWhile pyWS ++ collapseNL (s.dropWhile pyWS) := by
  induction s with
  | nil => rfl
  | cons c cs ih =>
    by_cases hc : pyWS c
    · have htw : (c :: cs).takeWhile pyWS = c :: cs.takeWhile pyWS :=
        List.takeWhile_cons_of_pos hc
      have hdw : (c :: cs).dropWhile pyWS = cs.dropWhile pyWS :=
        List.dropWhile_cons_of_pos hc
      rw [htw] at h
      have hcs : ((cs.takeWhile pyWS).count '\n') ≤ 2 := by
        rw [List.count_cons] at h; omega
      have hcnt : ¬(c = '\n' ∧ 3 ≤ (((c :: cs).takeWhile pyWS).count '\n')) := by
        intro hp
        obtain ⟨he, h3⟩ := hp
        rw [htw, he, List.count_cons_self] at h3
        rw [he, List.count_cons_self] at h
        omega
      rw [collapseNL_cons_neg hcnt, htw, hdw, List.cons_append]
      exact congrArg (c :: ·) (ih hcs)
    · have hcn : c ≠ '\n' := fun e => hc (e ▸ pyWS_nl)
      rw [List.takeWhile_cons_of_neg (by simpa using hc),
        List.dropWhile_cons_of_neg (by simpa using hc), List.nil_append]

/-- No suffix of `t` starts with a whitespace block containing three or
more newlines (= the collapse regex has no match anywhere in `t`). -/
def noNL3 (t : List Char) : Prop :=
  ∀ v, v <:+ t → ((v.takeWhile pyWS).count '\n') ≤ 2

theorem noNL3_nil : noNL3 [] := by
  intro v hv
  rw [List.suffix_nil.mp hv]
  simp

theorem noNL3_tail {c : Char} {cs : List Char} (h : noNL3 (c :: cs)) : noNL3 cs :=
  fun v hv => h v (hv.trans (List.suffix_cons c cs))

theorem noNL3_cons {c : Char} {cs : List Char}
    (h1 : (((c :: cs).takeWhile pyWS).count '\n') ≤ 2) (h2 : noNL3 cs) :
    noNL3 (c :: cs) := by
  intro v hv
  rcases List.suffix_cons_iff.mp hv with he | hv'
  · rw [he]; exact h1
  · exact h2 v hv'

theorem noNL3_ws_prepend {w : List Char} (hw : ∀ x ∈ w, pyWS x) (hwn : '\n' ∉ w) :
    ∀ {X : List Char}, noNL3 X → noNL3 (w ++ X) := by
  induction w with
  | nil => exact fun h => h
  | cons c w' ih =>
    intro X h
    rw [List.cons_append]
    have hw' : ∀ x ∈ w', pyWS x := fun x hx => hw x (List.mem_cons_of_mem c hx)
    have hwn' : '\n' ∉ w' := fun m => hwn (List.mem_cons_of_mem c m)
    have hc : c ≠ '\n' := fun e => hwn (e ▸ List.mem_cons_self c w')
    have hw0 : w'.count '\n' = 0 := List.count_eq_zero.mpr hwn'
    have hX : ((X.takeWhile pyWS).count '\n') ≤ 2 := h X (List.suffix_refl X)
    refine noNL3_cons ?_ (ih hw' hwn' h)
    rw [List.takeWhile_cons_of_pos (hw c (List.mem_cons_self c w')),
      takeWhile_append_all hw' X, List.count_cons, List.count_append, hw0,
      if_neg (by simp [hc])]
    omega

theorem collapseNL_noNL3 (s : List Char) : noNL3 (collapseNL s) := by
  suffices H : ∀ n t, List.length t ≤ n → noNL3 (collapseNL t) from H s.length s le_rfl
  intro n
  induction n with
  | zero =>
    intro t ht
    rw [List.length_eq_zero.mp (Nat.le_zero.mp ht), collapseNL_nil]
    exact noNL3_nil
  | succ n ih =>
    intro t ht
    match t with
    | [] => rw [collapseNL_nil]; exact noNL3_nil
    | c :: cs =>
      simp only [List.length_cons] at ht
      by_cases hm : c = '\n' ∧ 3 ≤ (((c :: cs).takeWhile pyWS).count '\n')
      · rw [collapseNL_cons_pos hm]
        have htlws : ∀ x ∈ afterLastNL ((c :: cs).takeWhile pyWS), pyWS x :=
          fun x hx => List.mem_takeWhile_imp (afterLastNL_subset hx)
        have htlnl : '\n' ∉ afterLastNL ((c :: cs).takeWhile pyWS) :=
          afterLastNL_no_nl _
        have hrestlen : (cs.dropWhile pyWS).length ≤ n := by
          have h1 : (cs.dropWhile pyWS).length ≤ cs.length :=
            (List.dropWhile_suffix pyWS).length_le
          omega
        have hX : noNL3 (collapseNL (cs.dropWhile pyWS)) := ih _ hrestlen
        have htw0 : ((collapseNL (cs.dropWhile pyWS)).takeWhile pyWS) = [] :=
          takeWhile_collapseNL_dropWhile cs
        have htl0 : (afterLastNL ((c :: cs).takeWhile pyWS)).count '\n' = 0 :=
          List.count_eq_zero.mpr htlnl
        refine noNL3_cons ?_ (noNL3_cons ?_ (noNL3_ws_prepend htlws htlnl hX))
        · rw [List.takeWhile_cons_of_pos pyWS_nl, List.takeWhile_cons_of_pos pyWS_nl,
            takeWhile_append_all htlws _, htw0, List.append_nil,
            List.count_cons_self, List.count_cons_self, htl0]
        · rw [List.takeWhile_cons_of_pos pyWS_nl, takeWhile_append_all htlws _,
            htw0, List.append_nil, List.count_cons_self, htl0]
          omega
      · rw [collapseNL_cons_neg hm]
        have hcs3 : noNL3 (collapseNL cs) := ih cs (by omega)
        by_cases hc : pyWS c
        · by_cases hcn : c = '\n'
          · subst hcn
            have hcnt : ((('\n' :: cs).takeWhile pyWS).count '\n') ≤ 2 := by
              by_contra hgt
              exact hm ⟨rfl, by omega⟩
            rw [List.takeWhile_cons_of_pos pyWS_nl, List.count_cons_self] at hcnt
            have hB : collapseNL cs = cs.takeWhile pyWS ++ collapseNL (cs.dropWhile pyWS) :=
              collapseNL_block (by omega)
            refine noNL3_cons ?_ hcs3
            rw [List.takeWhile_cons_of_pos pyWS_nl, hB,
              takeWhile_append_all (fun x hx => List.mem_takeWhile_imp hx) _,
              takeWhile_collapseNL_dropWhile cs, List.append_nil,
              List.count_cons_self]
            omega
          · refine noNL3_cons ?_ hcs3
            have hX2 : (((collapseNL cs).takeWhile pyWS).count '\n') ≤ 2 :=
              hcs3 _ (List.suffix_refl _)
            rw [List.takeWhile_cons_of_pos hc, List.count_cons,
              if_neg (by simp [hcn])]
            omega
        · refine noNL3_cons ?_ hcs3
          rw [List.takeWhile_cons_of_neg (by simpa using hc)]
          simp

theorem afterLastNL_suffix (l : List Char) : afterLastNL l <:+ l := by
  unfold afterLastNL
  obtain ⟨r, hr⟩ := List.takeWhile_prefix (l := l.reverse) (fun c => decide (c ≠ '\n'))
  refine ⟨r.reverse, ?_⟩
  rw [← List.reverse_append, hr, List.reverse_reverse]

theorem collapseNL_head_cases (d : Char) (ds : List Char) :
    (collapseNL (d :: ds)).head? = some '\n' ∨ (collapseNL (d :: ds)).head? = some d := by
  by_cases hm : d = '\n' ∧ 3 ≤ (((d :: ds).takeWhile pyWS).count '\n')
  · rw [collapseNL_cons_pos hm]; exact Or.inl rfl
  · rw [collapseNL_cons_neg hm]; exact Or.inr rfl

theorem collapseNL_pres {a b : Char} (ha : a ≠ '\n') (hb : b ≠ '\n') :
    ∀ s, NP a b s → NP a b (collapseNL s) := by
  suffices H : ∀ n t, List.length t ≤ n → NP a b t → NP a b (collapseNL t) from
    fun s => H s.length s le_rfl
  intro n
  induction n with
  | zero =>
    intro t ht _
    rw [List.length_eq_zero.mp (Nat.le_zero.mp ht), collapseNL_nil]
    exact List.chain'_nil
  | succ n ih =>
    intro t ht hnp
    match t with
    | [] => rw [collapseNL_nil]; exact List.chain'_nil
    | c :: cs =>
      simp only [List.length_cons] at ht
      by_cases hm : c = '\n' ∧ 3 ≤ (((c :: cs).takeWhile pyWS).count '\n')
      · rw [collapseNL_cons_pos hm]
        have hblk : (c :: cs).takeWhile pyWS <+: c :: cs := List.takeWhile_prefix pyWS
        have htl : afterLastNL ((c :: cs).takeWhile pyWS) <:+ (c :: cs).takeWhile pyWS :=
          afterLastNL_suffix _
        have hNPtl : NP a b (afterLastNL ((c :: cs).takeWhile pyWS)) :=
          hnp.infix (htl.isInfix.trans hblk.isInfix)
        have hrest : cs.dropWhile pyWS <:+ c :: cs :=
          (List.dropWhile_suffix pyWS).trans (List.suffix_cons c cs)
        have hNPX : NP a b (collapseNL (cs.dropWhile pyWS)) := by
          refine ih _ ?_ (hnp.suffix hrest)
          have h1 : (cs.dropWhile pyWS).length ≤ cs.length :=
            (List.dropWhile_suffix pyWS).length_le
          omega
        have hTlRest : NP a b (afterLastNL ((c :: cs).takeWhile pyWS) ++ cs.dropWhile pyWS) := by
          obtain ⟨u, hu⟩ := htl
          refine hnp.suffix ⟨u, ?_⟩
          rw [← List.append_assoc, hu]
          have hd : pyWS c := hm.1 ▸ pyWS_nl
          calc (c :: cs).takeWhile pyWS ++ cs.dropWhile pyWS
              = (c :: cs).takeWhile pyWS ++ (c :: cs).dropWhile pyWS := by
                rw [List.dropWhile_cons_of_pos hd]
            _ = c :: cs := List.takeWhile_append_dropWhile pyWS (c :: cs)
        refine List.chain'_cons'.mpr ⟨fun y _ hp => ha hp.1.symm,
          List.chain'_cons'.mpr ⟨fun y _ hp => ha hp.1.symm, ?_⟩⟩
        refine List.chain'_append.mpr ⟨hNPtl, hNPX, ?_⟩
        intro x hx y hy
        cases hrest0 : cs.dropWhile pyWS with
        | nil =>
          rw [hrest0, collapseNL_nil] at hy
          exact absurd hy (by simp)
        | cons r0 rs =>
          have hr0 : pyWS r0 = false := dropWhile_head_false hrest0
          rw [hrest0, collapseNL_head_not_ws hr0] at hy
          simp only [Option.mem_def, Option.some.injEq] at hy
          have hbr := (List.chain'_append.mp (hrest0 ▸ hTlRest)).2.2
          exact fun hp => hbr x hx r0 (by simp) ⟨hp.1, hy.trans hp.2⟩
      · rw [collapseNL_cons_neg hm]
        refine List.chain'_cons'.mpr ⟨?_, ih cs (by omega) hnp.tail⟩
        intro y hy
        cases cs with
        | nil => rw [collapseNL_nil] at hy; exact absurd hy (by simp)
        | cons d ds =>
          rcases collapseNL_head_cases d ds with he | he
          · rw [he] at hy
            simp only [Option.mem_def, Option.some.injEq] at hy
            exact fun hp => hb (hp.2.symm.trans hy.symm)
          · rw [he] at hy
            simp only [Option.mem_def, Option.some.injEq] at hy
            exact fun hp => (List.chain'_cons'.mp hnp).1 d (by simp) ⟨hp.1, hy.trans hp.2⟩


theorem collapseNL_ascii : ∀ s, allAscii s → allAscii (collapseNL s) := by
  suffices H : ∀ n t, List.length t ≤ n → allAscii t → allAscii (collapseNL t) from
    fun s => H s.length s le_rfl
  intro n
  induction n with
  | zero =>
    intro t ht _
    rw [List.length_eq_zero.mp (Nat.le_zero.mp ht), collapseNL_nil]
    exact fun c hc => absurd hc (by simp)
  | succ n ih =>
    intro t ht ha
    match t with
    | [] => rw [collapseNL_nil]; exact fun c hc => absurd hc (by simp)
    | c :: cs =>
      simp only [List.length_cons] at ht
      by_cases hm : c = '\n' ∧ 3 ≤ (((c :: cs).takeWhile pyWS).count '\n')
      · rw [collapseNL_cons_pos hm]
        have hrest : allAscii (collapseNL (cs.dropWhile pyWS)) := by
          refine ih _ ?_ ?_
          · have h1 : (cs.dropWhile pyWS).length ≤ cs.length :=
              (List.dropWhile_suffix pyWS).length_le
            omega
          · intro x hx
            exact ha x (((List.dropWhile_suffix pyWS).trans
              (List.suffix_cons c cs)).subset hx)
        intro x hx
        rcases List.mem_cons.mp hx with h1 | hx
        · subst h1; decide
        rcases List.mem_cons.mp hx with h1 | hx
        · subst h1; decide
        rcases List.mem_append.mp hx with h1 | h1
        · exact ha x ((List.takeWhile_prefix pyWS).subset (afterLastNL_subset h1))
        · exact hrest x h1
      · rw [collapseNL_cons_neg hm]
        intro x hx
        rcases List.mem_cons.mp hx with h1 | h1
        · exact h1 ▸ ha c (List.mem_cons_self c cs)
        · exact ih cs (by omega) (fun m hm2 => ha m (List.mem_cons_of_mem c hm2)) x h1

theorem joinNL_cons₂ (l l2 : List Char) (ls : List (List Char)) :
    joinNL (l :: l2 :: ls) = l ++ '\n' :: joinNL (l2 :: ls) := rfl

theorem joinNL_head_cons (d : Char) (t : List Char) (ls : List (List Char)) :
    ∃ J, joinNL ((d :: t) :: ls) = d :: J := by
  cases ls with
  | nil => exact ⟨t, rfl⟩
  | cons l3 ls' =>
    exact ⟨t ++ '\n' :: joinNL (l3 :: ls'), by rw [joinNL_cons₂, List.cons_append]⟩

theorem collapseNL_joinNL :
    ∀ L : List (List Char),
      (∀ l ∈ L, '\n' ∉ l) →
      (∀ l ∈ L, ∀ d, l.head? = some d → pyWS d = false) →
      List.Chain' (fun x y => ¬(x = [] ∧ y = [])) L →
      collapseNL (joinNL L) = joinNL L := by
  suffices H : ∀ n L, List.length L ≤ n →
      (∀ l ∈ L, '\n' ∉ l) →
      (∀ l ∈ L, ∀ d, l.head? = some d → pyWS d = false) →
      List.Chain' (fun x y => ¬(x = [] ∧ y = [])) L →
      collapseNL (joinNL L) = joinNL L from
    fun L => H L.length L le_rfl
  intro n
  induction n with
  | zero =>
    intro L hL _ _ _
    rw [List.length_eq_zero.mp (Nat.le_zero.mp hL)]
    exact collapseNL_nil
  | succ n ih =>
    intro L hL h1 h2 hc
    match L with
    | [] => exact collapseNL_nil
    | [l] =>
      show collapseNL l = l
      have h0 := collapseNL_append_no_nl (h1 l (List.mem_cons_self l [])) []
      rw [collapseNL_nil] at h0
      simp only [List.append_nil] at h0
      exact h0
    | l :: l2 :: ls =>
      simp only [List.length_cons] at hL
      rw [joinNL_cons₂, collapseNL_append_no_nl (h1 l (List.mem_cons_self l _))]
      congr 1
      cases hl2 : l2 with
      | cons d t =>
        have hd : pyWS d = false :=
          h2 l2 (List.mem_cons_of_mem l (List.mem_cons_self l2 ls)) d (by rw [hl2]; rfl)
        obtain ⟨J, hJ⟩ := joinNL_head_cons d t ls
        rw [hJ]
        have hcnt : ¬('\n' = '\n' ∧ 3 ≤ ((('\n' :: d :: J).takeWhile pyWS).count '\n')) := by
          intro hp
          rw [List.takeWhile_cons_of_pos pyWS_nl,
            List.takeWhile_cons_of_neg (by simp [hd])] at hp
          simp at hp
        rw [collapseNL_cons_neg hcnt]
        have hid : collapseNL (joinNL (l2 :: ls)) = joinNL (l2 :: ls) := by
          refine ih (l2 :: ls) (by simp only [List.length_cons] at hL ⊢; omega) ?_ ?_ hc.tail
          · exact fun x hx => h1 x (List.mem_cons_of_mem l hx)
          · exact fun x hx => h2 x (List.mem_cons_of_mem l hx)
        rw [hl2, hJ] at hid
        rw [hid]
      | nil =>
        cases ls with
        | nil =>
          show collapseNL ['\n'] = ['\n']
          have hcnt : ¬('\n' = '\n' ∧ 3 ≤ ((['\n'].takeWhile pyWS).count '\n')) := by
            decide
          rw [collapseNL_cons_neg hcnt, collapseNL_nil]
        | cons l3 ls' =>
          have hl3 : l3 ≠ [] := by
            have hpair := (List.chain'_cons.mp (List.chain'_cons.mp hc).2).1
            rw [hl2] at hpair
            intro he
            exact hpair ⟨rfl, he⟩
          obtain ⟨e, t3, he3⟩ : ∃ e t3, l3 = e :: t3 := by
            cases l3 with
            | nil => exact absurd rfl hl3
            | cons e t3 => exact ⟨e, t3, rfl⟩
          have hde : pyWS e = false :=
            h2 l3 (by simp) e (by rw [he3]; rfl)
          obtain ⟨J2, hJ2⟩ := joinNL_head_cons e t3 ls'
          rw [show joinNL ([] :: l3 :: ls') = '\n' :: joinNL (l3 :: ls') from rfl]
          rw [he3, hJ2]
          have hid : collapseNL (joinNL (l3 :: ls')) = joinNL (l3 :: ls') := by
            refine ih (l3 :: ls')
              (by simp only [List.length_cons] at hL ⊢; omega) ?_ ?_
              (List.chain'_cons.mp (List.chain'_cons.mp hc).2).2
            · exact fun x hx => h1 x (List.mem_cons_of_mem l (List.mem_cons_of_mem l2 hx))
            · exact fun x hx => h2 x (List.mem_cons_of_mem l (List.mem_cons_of_mem l2 hx))
          rw [he3, hJ2] at hid
          have hcnt2 : ¬('\n' = '\n' ∧
              3 ≤ ((('\n' :: '\n' :: e :: J2).takeWhile pyWS).count '\n')) := by
            intro hp
            rw [List.takeWhile_cons_of_pos pyWS_nl, List.takeWhile_cons_of_pos pyWS_nl,
              List.takeWhile_cons_of_neg (by simp [hde])] at hp
            simp at hp
          rw [collapseNL_cons_neg hcnt2]
          congr 1
          have hcnt3 : ¬('\n' = '\n' ∧
              3 ≤ ((('\n' :: e :: J2).takeWhile pyWS).count '\n')) := by
            intro hp
            rw [List.takeWhile_cons_of_pos pyWS_nl,
              List.takeWhile_cons_of_neg (by simp [hde])] at hp
            simp at hp
          rw [collapseNL_cons_neg hcnt3]
          rw [hid]

/-! ### strip / split / join lemmas -/

theorem dropTrailWS_pfx (m : List Char) : dropTrailWS m <+: m := by
  unfold dropTrailWS
  obtain ⟨t, ht⟩ := List.dropWhile_suffix (l := m.reverse) pyWS
  refine ⟨t.reverse, ?_⟩
  rw [← List.reverse_append, ht, List.reverse_reverse]

theorem stripChars_sub (l : List Char) : stripChars l <:+: l :=
  (dropTrailWS_pfx (l.dropWhile pyWS)).isInfix.trans (List.dropWhile_suffix pyWS).isInfix

theorem stripChars_head {l : List Char} {d : Char} (h : (stripChars l).head? = some d) :
    pyWS d = false := by
  obtain ⟨rest, hr⟩ : ∃ rest, stripChars l = d :: rest := by
    cases hs : stripChars l with
    | nil => rw [hs] at h; exact absurd h (by simp)
    | cons x xs =>
      rw [hs] at h
      simp only [List.head?_cons, Option.some.injEq] at h
      exact ⟨xs, by rw [← h]⟩
  obtain ⟨t, ht⟩ := dropTrailWS_pfx (l.dropWhile pyWS)
  rw [show dropTrailWS (l.dropWhile pyWS) = stripChars l from rfl, hr, List.cons_append] at ht
  exact dropWhile_head_false ht.symm

theorem stripChars_getLast {l : List Char} {d : Char}
    (h : (stripChars l).getLast? = some d) : pyWS d = false := by
  have h2 : ((l.dropWhile pyWS).reverse.dropWhile pyWS).head? = some d := by
    rw [← List.getLast?_reverse]
    rw [show ((l.dropWhile pyWS).reverse.dropWhile pyWS).reverse
        = stripChars l from rfl]
    exact h
  cases hs : (l.dropWhile pyWS).reverse.dropWhile pyWS with
  | nil => rw [hs] at h2; exact absurd h2 (by simp)
  | cons x xs =>
    rw [hs] at h2
    simp only [List.head?_cons, Option.some.injEq] at h2
    rw [← h2]
    exact dropWhile_head_false hs

theorem stripChars_eq_self {m : List Char}
    (h1 : ∀ d, m.head? = some d → pyWS d = false)
    (h2 : ∀ d, m.getLast? = some d → pyWS d = false) : stripChars m = m := by
  unfold stripChars dropTrailWS
  have hd : m.dropWhile pyWS = m := by
    cases m with
    | nil => rfl
    | cons c cs => exact List.dropWhile_cons_of_neg (by simp [h1 c rfl])
  rw [hd]
  have hr : m.reverse.dropWhile pyWS = m.reverse := by
    cases hm : m.reverse with
    | nil => rfl
    | cons c cs =>
      have hc : m.getLast? = some c := by
        rw [← List.head?_reverse, hm]; rfl
      exact List.dropWhile_cons_of_neg (by simp [h2 c hc])
  rw [hr, List.reverse_reverse]

theorem stripChars_idem (l : List Char) : stripChars (stripChars l) = stripChars l :=
  stripChars_eq_self (fun _ h => stripChars_head h) (fun _ h => stripChars_getLast h)

theorem stripChars_eq_nil_all_ws {l : List Char} (h : stripChars l = []) :
    ∀ x ∈ l, pyWS x := by
  intro x hx
  by_contra hws
  have hd : l.dropWhile pyWS ≠ [] := by
    intro he
    have := List.dropWhile_eq_nil_iff.mp he
    exact hws (by simpa using this x hx)
  obtain ⟨c, cs, hc⟩ : ∃ c cs, l.dropWhile pyWS = c :: cs := by
    cases hcc : l.dropWhile pyWS with
    | nil => exact absurd hcc hd
    | cons c cs => exact ⟨c, cs, rfl⟩
  have hcng : pyWS c = false := dropWhile_head_false hc
  have : stripChars l ≠ [] := by
    unfold stripChars dropTrailWS
    rw [hc]
    intro he
    have h2 : (c :: cs).reverse.dropWhile pyWS = [] := by
      have := congrArg List.reverse he
      rwa [List.reverse_reverse, List.reverse_nil] at this
    have h3 := List.dropWhile_eq_nil_iff.mp h2
    have hcm : c ∈ (c :: cs).reverse := by simp
    exact (by simpa [hcng] using h3 c hcm)
  exact this h

/-! ### splitNL / joinNL lemmas -/

theorem splitNL_ne_nil (s : List Char) : splitNL s ≠ [] := by
  induction s with
  | nil => simp [splitNL]
  | cons c cs ih =>
    by_cases hc : c = '\n'
    · simp [splitNL, hc]
    · cases hcc : splitNL cs with
      | nil => exact absurd hcc ih
      | cons l ls => simp [splitNL, hc, hcc]

theorem splitNL_no_nl (s : List Char) : ∀ l ∈ splitNL s, '\n' ∉ l := by
  induction s with
  | nil =>
    intro l hl
    rw [show splitNL [] = [[]] from rfl] at hl
    simp only [List.mem_singleton] at hl
    subst hl; simp
  | cons c cs ih =>
    intro l hl
    by_cases hc : c = '\n'
    · rw [show splitNL (c :: cs) = [] :: splitNL cs by simp [splitNL, hc]] at hl
      rcases List.mem_cons.mp hl with h | h
      · subst h; simp
      · exact ih l h
    · cases hcc : splitNL cs with
      | nil => exact absurd hcc (splitNL_ne_nil cs)
      | cons m ms =>
        rw [show splitNL (c :: cs) = (c :: m) :: ms by simp [splitNL, hc, hcc]] at hl
        rcases List.mem_cons.mp hl with h | h
        · subst h
          intro hm
          rcases List.mem_cons.mp hm with h | h
          · exact hc h.symm
          · exact ih m (hcc ▸ List.mem_cons_self m ms) h
        · exact ih l (hcc ▸ List.mem_cons_of_mem m h)

theorem joinNL_cons_head (c : Char) (m : List Char) (ls : List (List Char)) :
    joinNL ((c :: m) :: ls) = c :: joinNL (m :: ls) := by
  cases ls with
  | nil => rfl
  | cons l2 ls' => rw [joinNL_cons₂, joinNL_cons₂, List.cons_append]

theorem joinNL_splitNL (s : List Char) : joinNL (splitNL s) = s := by
  induction s with
  | nil => rfl
  | cons c cs ih =>
    by_cases hc : c = '\n'
    · rw [show splitNL (c :: cs) = [] :: splitNL cs by simp [splitNL, hc]]
      cases hcc : splitNL cs with
      | nil => exact absurd hcc (splitNL_ne_nil cs)
      | cons m ms =>
        rw [joinNL_cons₂, List.nil_append, hc]
        rw [hcc] at ih
        rw [ih]
    · cases hcc : splitNL cs with
      | nil => exact absurd hcc (splitNL_ne_nil cs)
      | cons m ms =>
        rw [show splitNL (c :: cs) = (c :: m) :: ms by simp [splitNL, hc, hcc]]
        rw [joinNL_cons_head]
        rw [hcc] at ih
        rw [ih]

theorem splitNL_no_nl_eq {l : List Char} (h : '\n' ∉ l) : splitNL l = [l] := by
  induction l with
  | nil => rfl
  | cons c cs ih =>
    have hc : ¬ c = '\n' := fun e => h (e ▸ List.mem_cons_self c cs)
    have h2 := ih (fun m => h (List.mem_cons_of_mem c m))
    simp [splitNL, hc, h2]

theorem splitNL_append_nl {l : List Char} (h : '\n' ∉ l) :
    ∀ r, splitNL (l ++ '\n' :: r) = l :: splitNL r := by
  induction l with
  | nil =>
    intro r
    rw [List.nil_append]
    simp [splitNL]
  | cons c cs ih =>
    intro r
    have hc : ¬ c = '\n' := fun e => h (e ▸ List.mem_cons_self c cs)
    have h2 := ih (fun m => h (List.mem_cons_of_mem c m)) r
    rw [List.cons_append]
    simp [splitNL, hc, h2]

theorem splitNL_joinNL :
    ∀ L : List (List Char), L ≠ [] → (∀ l ∈ L, '\n' ∉ l) → splitNL (joinNL L) = L := by
  intro L
  induction L with
  | nil => exact fun h _ => absurd rfl h
  | cons l ls ih =>
    intro _ hnl
    cases ls with
    | nil => exact splitNL_no_nl_eq (hnl l (List.mem_cons_self l []))
    | cons l2 ls' =>
      rw [joinNL_cons₂, splitNL_append_nl (hnl l (List.mem_cons_self l _))]
      rw [ih (by simp) (fun x hx => hnl x (List.mem_cons_of_mem l hx))]

theorem joinNL_append :
    ∀ C K : List (List Char), C ≠ [] → K ≠ [] →
      joinNL (C ++ K) = joinNL C ++ '\n' :: joinNL K := by
  intro C
  induction C with
  | nil => exact fun K h _ => absurd rfl h
  | cons c C' ih =>
    intro K _ hK
    cases C' with
    | nil =>
      cases K with
      | nil => exact absurd rfl hK
      | cons k K' => rw [List.singleton_append, joinNL_cons₂]; rfl
    | cons c2 C'' =>
      rw [List.cons_append, List.cons_append, joinNL_cons₂, joinNL_cons₂,
        ← List.cons_append, ih K (by simp) hK]
      simp

theorem mem_joinNL_sub {L : List (List Char)} {l : List Char} (h : l ∈ L) :
    l <:+: joinNL L := by
  induction L with
  | nil => exact absurd h (by simp)
  | cons m ls ih =>
    rcases List.mem_cons.mp h with he | hm
    · subst he
      cases ls with
      | nil => exact List.infix_refl l
      | cons l2 ls' =>
        rw [joinNL_cons₂]
        exact (List.prefix_append l _).isInfix
    · cases ls with
      | nil => exact absurd hm (List.not_mem_nil l)
      | cons l2 ls' =>
        rw [joinNL_cons₂]
        refine (ih hm).trans ?_
        exact ((List.suffix_cons '\n' _).trans (List.suffix_append _ _)).isInfix

theorem mem_splitNL_sub {t l : List Char} (h : l ∈ splitNL t) : l <:+: t := by
  have := mem_joinNL_sub h
  rwa [joinNL_splitNL] at this

theorem joinNL_NP {a b : Char} (ha : a ≠ '\n') (hb : b ≠ '\n') :
    ∀ L : List (List Char), (∀ l ∈ L, NP a b l) → NP a b (joinNL L) := by
  intro L
  induction L with
  | nil => exact fun _ => List.chain'_nil
  | cons l ls ih =>
    intro h
    cases ls with
    | nil => exact h l (List.mem_cons_self l [])
    | cons l2 ls' =>
      rw [joinNL_cons₂]
      refine List.chain'_append.mpr ⟨h l (List.mem_cons_self l _), ?_, ?_⟩
      · refine List.chain'_cons'.mpr ⟨fun y _ hp => ha hp.1.symm,
          ih (fun x hx => h x (List.mem_cons_of_mem l hx))⟩
      · intro x _ y hy
        simp only [List.head?_cons, Option.mem_def, Option.some.injEq] at hy
        exact fun hp => hb (hp.2.symm.trans hy.symm)

theorem joinNL_ascii :
    ∀ L : List (List Char), (∀ l ∈ L, allAscii l) → allAscii (joinNL L) := by
  intro L
  induction L with
  | nil => exact fun _ c hc => absurd hc (List.not_mem_nil c)
  | cons l ls ih =>
    intro h
    cases ls with
    | nil => exact h l (List.mem_cons_self l [])
    | cons l2 ls' =>
      rw [joinNL_cons₂]
      intro x hx
      rcases List.mem_append.mp hx with h1 | h1
      · exact h l (List.mem_cons_self l _) x h1
      rcases List.mem_cons.mp h1 with h2 | h2
      · subst h2; decide
      · exact ih (fun m hm => h m (List.mem_cons_of_mem l hm)) x h2

/-! ### dropEnds lemmas -/

theorem dropLeadE_sfx : ∀ M : List (List Char), dropLeadE M <:+ M := by
  intro M
  induction M with
  | nil => exact List.suffix_refl []
  | cons l ls ih =>
    by_cases hl : l = []
    · rw [show dropLeadE (l :: ls) = dropLeadE ls by simp [dropLeadE, hl]]
      exact ih.trans (List.suffix_cons l ls)
    · rw [show dropLeadE (l :: ls) = l :: ls by simp [dropLeadE, hl]]

theorem dropLeadE_head :
    ∀ {M : List (List Char)} {l : List Char} {ls : List (List Char)},
      dropLeadE M = l :: ls → l ≠ [] := by
  intro M
  induction M with
  | nil => intro l ls h; exact absurd h (by simp [dropLeadE])
  | cons m ms ih =>
    intro l ls h
    by_cases hm : m = []
    · rw [show dropLeadE (m :: ms) = dropLeadE ms by simp [dropLeadE, hm]] at h
      exact ih h
    · rw [show dropLeadE (m :: ms) = m :: ms by simp [dropLeadE, hm]] at h
      injection h with h1 _
      exact h1 ▸ hm

theorem dropEnds_decomp (M : List (List Char)) : ∃ P S, M = P ++ dropEnds M ++ S := by
  obtain ⟨P, hP⟩ := dropLeadE_sfx M
  obtain ⟨Q, hQ⟩ := dropLeadE_sfx (dropLeadE M).reverse
  have h2 := congrArg List.reverse hQ
  rw [List.reverse_append, List.reverse_reverse] at h2
  refine ⟨P, Q.reverse, ?_⟩
  calc M = P ++ dropLeadE M := hP.symm
    _ = P ++ (dropEnds M ++ Q.reverse) := by rw [← h2]; rfl
    _ = P ++ dropEnds M ++ Q.reverse := by rw [List.append_assoc]

theorem dropEnds_head_ne {M : List (List Char)} {l : List Char} {ls : List (List Char)}
    (h : dropEnds M = l :: ls) : l ≠ [] := by
  obtain ⟨Q, hQ⟩ := dropLeadE_sfx (dropLeadE M).reverse
  have hpref : dropEnds M ++ Q.reverse = dropLeadE M := by
    have h2 := congrArg List.reverse hQ
    rw [List.reverse_append, List.reverse_reverse] at h2
    exact h2
  rw [h, List.cons_append] at hpref
  exact dropLeadE_head hpref.symm

theorem dropEnds_getLast_ne {M : List (List Char)} {l : List Char}
    (h : (dropEnds M).getLast? = some l) : l ≠ [] := by
  have h2 : (dropLeadE (dropLeadE M).reverse).head? = some l := by
    rw [← List.getLast?_reverse]
    exact h
  cases hc : dropLeadE (dropLeadE M).reverse with
  | nil => rw [hc] at h2; exact absurd h2 (by simp)
  | cons x xs =>
    rw [hc] at h2
    simp only [List.head?_cons, Option.some.injEq] at h2
    exact h2 ▸ dropLeadE_head hc

theorem dropLeadE_eq_self {M : List (List Char)}
    (h : ∀ l ls, M = l :: ls → l ≠ []) : dropLeadE M = M := by
  cases M with
  | nil => rfl
  | cons l ls => simp [dropLeadE, h l ls rfl]

theorem dropEnds_eq_self {M : List (List Char)}
    (h1 : ∀ l ls, M = l :: ls → l ≠ [])
    (h2 : ∀ l, M.getLast? = some l → l ≠ []) :
    dropEnds M = M := by
  unfold dropEnds
  rw [dropLeadE_eq_self h1]
  have h3 : dropLeadE M.reverse = M.reverse := by
    apply dropLeadE_eq_self
    intro l ls h
    apply h2
    rw [← List.head?_reverse, h]
    rfl
  rw [h3, List.reverse_reverse]

theorem mem_dropEnds {M : List (List Char)} {l : List Char} (h : l ∈ dropEnds M) :
    l ∈ M := by
  obtain ⟨P, S, hPS⟩ := dropEnds_decomp M
  rw [hPS]
  simp only [List.mem_append]
  exact Or.inl (Or.inr h)

theorem not_chain'_decomp {α : Type} {R : α → α → Prop} :
    ∀ L : List α, ¬ List.Chain' R L → ∃ A x y B, L = A ++ x :: y :: B ∧ ¬ R x y := by
  intro L
  induction L with
  | nil => intro h; exact absurd List.chain'_nil h
  | cons a L' ih =>
    intro h
    cases L' with
    | nil => exact absurd (List.chain'_singleton a) h
    | cons b L'' =>
      by_cases hR : R a b
      · have h2 : ¬ List.Chain' R (b :: L'') := fun hc => h (List.chain'_cons.mpr ⟨hR, hc⟩)
        obtain ⟨A, x, y, B, hL, hxy⟩ := ih h2
        exact ⟨a :: A, x, y, B, by rw [hL, List.cons_append], hxy⟩
      · exact ⟨[], a, b, L'', rfl, hR⟩

/-- If the collapse regex has no match in `t`, then splitting `t` on
newlines never yields two consecutive all-whitespace lines strictly inside
the line list. -/
theorem splitNL_no_double_ws {t : List Char} (ht : noNL3 t) :
    ∀ C u v D, splitNL t = C ++ u :: v :: D → C ≠ [] → D ≠ [] →
      ¬(stripChars u = [] ∧ stripChars v = []) := by
  intro C u v D hsplit hC hD hsv
  obtain ⟨hu, hv⟩ := hsv
  have huws : ∀ x ∈ u, pyWS x := stripChars_eq_nil_all_ws hu
  have hvws : ∀ x ∈ v, pyWS x := stripChars_eq_nil_all_ws hv
  have hun : '\n' ∉ u := by
    apply splitNL_no_nl t u
    rw [hsplit]
    simp
  have hvn : '\n' ∉ v := by
    apply splitNL_no_nl t v
    rw [hsplit]
    simp
  have ht2 : t = joinNL (C ++ u :: v :: D) := by rw [← hsplit, joinNL_splitNL]
  have hjoin : joinNL (C ++ u :: v :: D) =
      joinNL C ++ '\n' :: (u ++ '\n' :: joinNL (v :: D)) := by
    rw [joinNL_append C _ hC (by simp), joinNL_cons₂]
  have hjoin2 : joinNL (v :: D) = v ++ '\n' :: joinNL D := by
    cases D with
    | nil => exact absurd rfl hD
    | cons d D' => exact joinNL_cons₂ v d D'
  have hsfx : ('\n' :: (u ++ '\n' :: (v ++ '\n' :: joinNL D))) <:+ t := by
    rw [ht2, hjoin, hjoin2]
    exact ⟨joinNL C, rfl⟩
  have hcount := ht _ hsfx
  have hu0 : u.count '\n' = 0 := List.count_eq_zero.mpr hun
  have hv0 : v.count '\n' = 0 := List.count_eq_zero.mpr hvn
  rw [List.takeWhile_cons_of_pos pyWS_nl, takeWhile_append_all huws,
    List.takeWhile_cons_of_pos pyWS_nl, takeWhile_append_all hvws,
    List.takeWhile_cons_of_pos pyWS_nl] at hcount
  rw [List.count_cons_self, List.count_append, hu0, List.count_cons_self,
    List.count_append, hv0, List.count_cons_self] at hcount
  omega

/-- The line list produced by `format_text` contains no two consecutive
empty lines. -/
theorem ftLines_chain {t : List Char} (ht : noNL3 t) :
    List.Chain' (fun x y => ¬(x = [] ∧ y = [])) (ftLines t) := by
  by_contra hnc
  obtain ⟨A, x, y, B, hL, hxy⟩ := not_chain'_decomp _ hnc
  obtain ⟨hx, hy⟩ := not_not.mp hxy
  subst hx
  subst hy
  have hL2 : dropEnds ((splitNL t).map stripChars) = A ++ [] :: [] :: B := hL
  have hA : A ≠ [] := by
    intro he
    subst he
    rw [List.nil_append] at hL2
    exact (dropEnds_head_ne hL2) rfl
  have hB : B ≠ [] := by
    intro he
    subst he
    have hlast : (dropEnds ((splitNL t).map stripChars)).getLast? = some [] := by
      rw [hL2]
      rw [show A ++ [([] : List Char), []] = A ++ [([] : List Char), []] from rfl]
      rw [List.getLast?_append]
      rfl
    exact (dropEnds_getLast_ne hlast) rfl
  obtain ⟨P, S, hPS⟩ := dropEnds_decomp ((splitNL t).map stripChars)
  rw [hL2] at hPS
  have hM : (splitNL t).map stripChars = (P ++ A) ++ ([] :: [] :: (B ++ S)) := by
    rw [hPS]
    simp [List.append_assoc]
  rw [List.map_eq_append_iff] at hM
  obtain ⟨C, rest, hNsplit, hmapC, hmaprest⟩ := hM
  rw [List.map_eq_cons_iff] at hmaprest
  obtain ⟨u, rest2, hrest, hu, hmaprest2⟩ := hmaprest
  rw [List.map_eq_cons_iff] at hmaprest2
  obtain ⟨v, rest3, hrest2, hv, hmaprest3⟩ := hmaprest2
  have hsplit : splitNL t = C ++ u :: v :: rest3 := by
    rw [hNsplit, hrest, hrest2]
  have hC : C ≠ [] := by
    intro he
    rw [he] at hmapC
    have h2 : P ++ A = [] := hmapC.symm
    exact hA (List.append_eq_nil.mp h2).2
  have hD : rest3 ≠ [] := by
    intro he
    rw [he] at hmaprest3
    have h2 : B ++ S = [] := hmaprest3.symm
    exact hB (List.append_eq_nil.mp h2).1
  exact splitNL_no_double_ws ht C u v rest3 hsplit hC hD ⟨hu, hv⟩

/-! ### Idempotence of format_text -/

theorem map_self_of_mem {α : Type} {f : α → α} :
    ∀ {l : List α}, (∀ x ∈ l, f x = x) → l.map f = l := by
  intro l
  induction l with
  | nil => intro _; rfl
  | cons x xs ih =>
    intro h
    rw [List.map_cons, h x (List.mem_cons_self x xs),
      ih (fun m hm => h m (List.mem_cons_of_mem x hm))]

theorem ftCore_eq {s : List Char} (hs : s ≠ []) :
    ftCore s = joinNL (ftLines (collapseNL (collapseSp (deAscii (ftUni (ftEsc s)))))) := by
  unfold ftCore
  rw [if_neg hs]

/-- `ftCore` is the identity on any string assembled by joining lines that
are stripped, newline-free, ASCII, free of literal escape pairs and double
spaces, with no two consecutive empty lines and nonempty first/last line. -/
theorem ftCore_fix (L : List (List Char))
    (hnl : ∀ l ∈ L, '\n' ∉ l)
    (hhead : ∀ l ∈ L, ∀ d, l.head? = some d → pyWS d = false)
    (hstrip : ∀ l ∈ L, stripChars l = l)
    (hNPn : ∀ l ∈ L, NP '\\' 'n' l) (hNPt : ∀ l ∈ L, NP '\\' 't' l)
    (hNPr : ∀ l ∈ L, NP '\\' 'r' l) (hNPsp : ∀ l ∈ L, NP ' ' ' ' l)
    (hascii : ∀ l ∈ L, allAscii l)
    (hchain : List.Chain' (fun x y => ¬(x = [] ∧ y = [])) L)
    (hheadL : ∀ l ls, L = l :: ls → l ≠ [])
    (hlastL : ∀ l, L.getLast? = some l → l ≠ []) :
    ftCore (joinNL L) = joinNL L := by
  by_cases hy : joinNL L = []
  · rw [hy]; rfl
  · have hLne : L ≠ [] := fun he => hy (by rw [he]; rfl)
    rw [ftCore_eq hy]
    have e1 : ftEsc (joinNL L) = joinNL L := by
      unfold ftEsc
      rw [replace2_id _ _ (joinNL_NP (by decide) (by decide) L hNPn),
        replace2_id _ _ (joinNL_NP (by decide) (by decide) L hNPt),
        replace2_id _ _ (joinNL_NP (by decide) (by decide) L hNPr)]
    have hjascii := joinNL_ascii L hascii
    have e2 : ftUni (joinNL L) = joinNL L := ftUni_id hjascii
    have e3 : deAscii (joinNL L) = joinNL L := deAscii_id hjascii
    have e4 : collapseSp (joinNL L) = joinNL L :=
      collapseSp_id (joinNL_NP (by decide) (by decide) L hNPsp)
    have e5 : collapseNL (joinNL L) = joinNL L := collapseNL_joinNL L hnl hhead hchain
    rw [e1, e2, e3, e4, e5]
    unfold ftLines
    rw [splitNL_joinNL L hLne hnl, map_self_of_mem hstrip,
      dropEnds_eq_self hheadL hlastL]

theorem ftCore_idem (s : List Char) : ftCore (ftCore s) = ftCore s := by
  by_cases hs : s = []
  · subst hs; rfl
  · have hEn : NP '\\' 'n' (ftEsc s) := by
      unfold ftEsc
      exact replace2_pres (by decide) (by decide) _
        (replace2_pres (by decide) (by decide) _
          (replace2_kill (by decide) (by decide) s))
    have hEt : NP '\\' 't' (ftEsc s) := by
      unfold ftEsc
      exact replace2_pres (by decide) (by decide) _
        (replace2_kill (by decide) (by decide) _)
    have hEr : NP '\\' 'r' (ftEsc s) := by
      unfold ftEsc
      exact replace2_kill (by decide) (by decide) _
    have hS5n : NP '\\' 'n' (collapseNL (collapseSp (deAscii (ftUni (ftEsc s))))) :=
      collapseNL_pres (by decide) (by decide) _
        (collapseSp_pres (by decide) (by decide)
          (deAscii_pres (by decide) (by decide) (ftUni_pres uniTable_vals_bsn hEn)))
    have hS5t : NP '\\' 't' (collapseNL (collapseSp (deAscii (ftUni (ftEsc s))))) :=
      collapseNL_pres (by decide) (by decide) _
        (collapseSp_pres (by decide) (by decide)
          (deAscii_pres (by decide) (by decide) (ftUni_pres uniTable_vals_bst hEt)))
    have hS5r : NP '\\' 'r' (collapseNL (collapseSp (deAscii (ftUni (ftEsc s))))) :=
      collapseNL_pres (by decide) (by decide) _
        (collapseSp_pres (by decide) (by decide)
          (deAscii_pres (by decide) (by decide) (ftUni_pres uniTable_vals_bsr hEr)))
    have hS5sp : NP ' ' ' ' (collapseNL (collapseSp (deAscii (ftUni (ftEsc s))))) :=
      collapseNL_pres (by decide) (by decide) _ (collapseSp_kill _)
    have hS5ascii : allAscii (collapseNL (collapseSp (deAscii (ftUni (ftEsc s))))) :=
      collapseNL_ascii _ (collapseSp_ascii (deAscii_ascii _))
    have hS5nn3 : noNL3 (collapseNL (collapseSp (deAscii (ftUni (ftEsc s))))) :=
      collapseNL_noNL3 _
    have hmem : ∀ l ∈ ftLines (collapseNL (collapseSp (deAscii (ftUni (ftEsc s))))),
        ∃ l0, l0 ∈ splitNL (collapseNL (collapseSp (deAscii (ftUni (ftEsc s))))) ∧
          l = stripChars l0 := by
      intro l hl
      have h2 : l ∈ (splitNL (collapseNL (collapseSp (deAscii (ftUni
          (ftEsc s)))))).map stripChars := mem_dropEnds hl
      obtain ⟨l0, hl0, he⟩ := List.mem_map.mp h2
      exact ⟨l0, hl0, he.symm⟩
    rw [ftCore_eq hs]
    apply ftCore_fix
    · intro l hl
      obtain ⟨l0, hl0, he⟩ := hmem l hl
      subst he
      intro hm
      exact splitNL_no_nl _ l0 hl0 ((stripChars_sub l0).subset hm)
    · intro l hl d hd
      obtain ⟨l0, hl0, he⟩ := hmem l hl
      subst he
      exact stripChars_head hd
    · intro l hl
      obtain ⟨l0, hl0, he⟩ := hmem l hl
      subst he
      exact stripChars_idem l0
    · intro l hl
      obtain ⟨l0, hl0, he⟩ := hmem l hl
      subst he
      have h1 := hS5n.infix (mem_splitNL_sub hl0)
      exact h1.infix (stripChars_sub l0)
    · intro l hl
      obtain ⟨l0, hl0, he⟩ := hmem l hl
      subst he
      have h1 := hS5t.infix (mem_splitNL_sub hl0)
      exact h1.infix (stripChars_sub l0)
    · intro l hl
      obtain ⟨l0, hl0, he⟩ := hmem l hl
      subst he
      have h1 := hS5r.infix (mem_splitNL_sub hl0)
      exact h1.infix (stripChars_sub l0)
    · intro l hl
      obtain ⟨l0, hl0, he⟩ := hmem l hl
      subst he
      have h1 := hS5sp.infix (mem_splitNL_sub hl0)
      exact h1.infix (stripChars_sub l0)
    · intro l hl x hx
      obtain ⟨l0, hl0, he⟩ := hmem l hl
      subst he
      exact hS5ascii x ((mem_splitNL_sub hl0).subset ((stripChars_sub l0).subset hx))
    · exact ftLines_chain hS5nn3
    · exact fun l ls h => dropEnds_head_ne h
    · exact fun l h => dropEnds_getLast_ne h

/-- C10: `format_text` is idempotent. -/
theorem format_text_idem (t : String) :
    format_text (format_text t) = format_text t := by
  unfold format_text
  rw [show (String.mk (ftCore t.data)).data = ftCore t.data from rfl, ftCore_idem]

/-! ## PDF pipeline model (`src/pdf_parser.py`, `src/app.py`)

The pypdf / PIL calls are external: a `PdfDoc` records their outcomes —
whether `PdfReader` raised, and per page the result of
`extract_content_from_page` (text via layout mode, plus the image-info
dicts assembled by `extract_images_from_page`). Everything from the
document walker onward is modelled from the source. -/

/-- One image-info dict as built by
`PDFTextExtractor.extract_images_from_page` (with `save_to_disk=True`):
`name` (extension already enforced), `format`/`size` (None when PIL could
not decode — note `process_pdf_file` reads these with `.get(..., default)`
but the keys are always present, so the defaults are dead), full `base64`
data, and `file_path` (present because the write succeeded, else the image
was skipped). -/
structure ImgInfo where
  name : String
  format : Option String
  size : Option (Nat × Nat)
  base64 : String
  file_path : String

/-- Outcome of `extract_content_from_page` for one page: the extracted
text and images, or an exception (`reachedImages` records whether
`extract_images_from_page` had already run `os.makedirs` when it
raised). -/
inductive PageResult where
  | ok (text : String) (images : List ImgInfo)
  | err (reachedImages : Bool)

/-- A PDF document as seen through pypdf: whether opening raised, the
per-page extraction outcomes, the metadata dictionary (`None` when the
document has no `/Info`), and the source path. -/
structure PdfDoc where
  openErr : Option String
  pages : List PageResult
  metadata : Option (List (String × String))
  path : String

/-- One element of the list built by
`PDFTextExtractor.extract_content_all_pages` (0-indexed page_number). -/
structure PageContent where
  page_number : Nat
  text : String
  images : List ImgInfo

/-- `PDFTextExtractor.extract_content_all_pages`: iterate pages in order;
a page whose extraction raises contributes an empty record at its
position. -/
def extract_content_all_pages (doc : PdfDoc) : List PageContent :=
  doc.pages.enum.map fun p =>
    match p.2 with
    | .ok t imgs => ⟨p.1, t, imgs⟩
    | .err _ => ⟨p.1, "", []⟩

/-- Values stored in the `pdf_info` dict. -/
inductive InfoVal where
  | str (s : String)
  | nat (n : Nat)
deriving DecidableEq

/-- `metadata.get(key, 'Unknown')`. -/
def mdLookup (md : List (String × String)) (k : String) : String :=
  (md.lookup k).getD "Unknown"

/-- `PDFTextExtractor.get_pdf_info`: always `file_path` and `num_pages`;
the metadata fields are added only when `self.reader.metadata` is truthy
(non-None and non-empty). -/
def get_pdf_info (doc : PdfDoc) : List (String × InfoVal) :=
  [("file_path", InfoVal.str doc.path), ("num_pages", InfoVal.nat doc.pages.length)] ++
  match doc.metadata with
  | none => []
  | some md =>
    if md = [] then []
    else
      [("title", InfoVal.str (mdLookup md "/Title")),
       ("author", InfoVal.str (mdLookup md "/Author")),
       ("subject", InfoVal.str (mdLookup md "/Subject")),
       ("creator", InfoVal.str (mdLookup md "/Creator")),
       ("producer", InfoVal.str (mdLookup md "/Producer")),
       ("creation_date", InfoVal.str (mdLookup md "/CreationDate")),
       ("modification_date", InfoVal.str (mdLookup md "/ModDate"))]

/-- One image entry of the persisted record (`process_pdf_file`). -/
structure ProcessedImage where
  image_index : Nat
  image_name : String
  image_format : Option String
  image_size : Option (Nat × Nat)
  image_path : String
  base64_preview : String

/-- One page entry of the persisted record (`process_pdf_file`):
1-indexed page number, text with derived length, images with derived
count. -/
structure ProcessedPage where
  page_number : Nat
  text : String
  text_length : Nat
  images : List ProcessedImage
  image_count : Nat

/-- The persisted record written to `data/{content_id}.json` by
`process_pdf_file`. -/
structure ProcessedData where
  content_id : String
  pdf_info : List (String × InfoVal)
  total_pages : Nat
  processed_at : String
  pages : List ProcessedPage

/-- The record written to `data/{content_id}.json` by the
`/youtube-transcript` handler. -/
structure TranscriptData where
  content_id : String
  content_type : String
  title : String
  url : String
  text_length : Nat
  text_preview : String
  status : String
  transcript : String
  processed_at : String

/-- A persisted JSON record. -/
inductive StoredJson where
  | pdf (d : ProcessedData)
  | yt (d : TranscriptData)

/-- The filesystem state the handlers manipulate: file names in
`uploads/`, `data/{id}.json` records keyed by id, and the sub-directories
of the images directory. -/
structure FS where
  uploads : List String
  dataFiles : List (String × StoredJson)
  imageDirs : List String

def addIfAbsent (x : String) (l : List String) : List String :=
  if x ∈ l then l else x :: l

/-- Write (or overwrite) `data/{k}.json`. -/
def setJson (l : List (String × StoredJson)) (k : String) (v : StoredJson) :
    List (String × StoredJson) :=
  (k, v) :: l.filter (fun p => p.1 ≠ k)

/-- Errors raised by `process_pdf_file`: the `ValueError` carrying the
measured character count (size guard), or any other exception with its
message. -/
inductive PdfError where
  | sizeLimit (total : Nat)
  | processingError (msg : String)

/-- `image_data` built per image by `process_pdf_file` (1-indexed,
base64 preview truncated to 100 characters plus an ellipsis marker). -/
def buildImage (idx : Nat) (img : ImgInfo) : ProcessedImage :=
  { image_index := idx + 1
    image_name := img.name
    image_format := img.format
    image_size := img.size
    image_path := img.file_path
    base64_preview :=
      if 100 < img.base64.length then img.base64.take 100 ++ "..." else img.base64 }

/-- `page_data` built per page by `process_pdf_file`: renumber to
1-indexed, derive `text_length` and `image_count`. -/
def buildPage (pc : PageContent) : ProcessedPage :=
  { page_number := pc.page_number + 1
    text := pc.text
    text_length := pc.text.length
    images := pc.images.enum.map fun p => buildImage p.1 p.2
    image_count := (pc.images.enum.map fun p => buildImage p.1 p.2).length }

/-- Whether the walk created `image_dir/content_id` (`os.makedirs` runs at
the start of `extract_images_from_page`, i.e. for every page whose text
extraction did not already raise). -/
def imageDirCreated (doc : PdfDoc) : Bool :=
  doc.pages.any fun p =>
    match p with
    | .ok _ _ => true
    | .err reached => reached

/-- `total_characters` computed by `process_pdf_file`. -/
def totalChars (doc : PdfDoc) : Nat :=
  ((extract_content_all_pages doc).map fun pc => pc.text.length).sum

/-- `process_pdf_file(file_path, content_id, image_dir, data_dir)`:
open → extract all pages (writing images as a side effect) → size guard
(strictly greater than 100000 raises) → assemble and persist the record.
`now` stands for `datetime.now().isoformat()`. -/
def process_pdf_file (doc : PdfDoc) (content_id : String) (now : String) (fs : FS) :
    Except PdfError ProcessedData × FS :=
  match doc.openErr with
  | some msg => (.error (.processingError ("Error reading PDF file: " ++ msg)), fs)
  | none =>
    let fs1 : FS :=
      { fs with imageDirs :=
          if imageDirCreated doc then addIfAbsent content_id fs.imageDirs
          else fs.imageDirs }
    if 100000 < totalChars doc then
      (.error (.sizeLimit (totalChars doc)), fs1)
    else
      let processed : ProcessedData :=
        { content_id := content_id
          pdf_info := get_pdf_info doc
          total_pages := (extract_content_all_pages doc).length
          processed_at := now
          pages := (extract_content_all_pages doc).map buildPage }
      (.ok processed,
        { fs1 with dataFiles := setJson fs1.dataFiles content_id (.pdf processed) })

/-- The degraded response data built by the upload handler when
processing fails unexpectedly. -/
structure FailInfo where
  content_id : String
  content_type : String
  title : String
  text_length : Nat
  text_preview : String
  status : String
  error : String

/-- Outcome of the `/upload-pdf` handler after the file was saved:
success with the processed record, an HTTP 400 for the size limit, or the
`success=False` degraded response. -/
inductive UploadOutcome where
  | success (data : ProcessedData)
  | tooLarge (measured : Nat)
  | processingFailed (info : FailInfo)

/-- Whether the `unlink` / `rmtree` calls of the size-limit cleanup raise
(each is wrapped in its own try/except that only logs). -/
structure CleanupFaults where
  pdfDel : Bool
  jsonDel : Bool
  imgDel : Bool

def noFaults : CleanupFaults := ⟨false, false, false⟩

def uploadFileName (file_id filename : String) : String := file_id ++ "_" ++ filename

/-- The `/upload-pdf` handler (`upload_pdf` in `src/app.py`) after
validation: save the file, process it; on `ValueError` delete the three
artifacts independently (a failed deletion is logged, never re-raised)
and answer 400; on any other exception keep the file and return the
degraded record without persisting anything. -/
def upload_pdf (doc : PdfDoc) (filename file_id now : String)
    (faults : CleanupFaults) (fs : FS) : UploadOutcome × FS :=
  let fname := uploadFileName file_id filename
  let fs0 : FS := { fs with uploads := addIfAbsent fname fs.uploads }
  match process_pdf_file doc file_id now fs0 with
  | (.ok data, fs1) => (.success data, fs1)
  | (.error (.sizeLimit n), fs1) =>
    let fs2 := if faults.pdfDel then fs1
      else { fs1 with uploads := fs1.uploads.filter (fun f => f ≠ fname) }
    let fs3 := if faults.jsonDel then fs2
      else { fs2 with dataFiles := fs2.dataFiles.filter (fun p => p.1 ≠ file_id) }
    let fs4 := if faults.imgDel then fs3
      else { fs3 with imageDirs := fs3.imageDirs.filter (fun d => d ≠ file_id) }
    (.tooLarge n, fs4)
  | (.error (.processingError msg), fs1) =>
    (.processingFailed
      { content_id := file_id
        content_type := "pdf-file"
        title := filename
        text_length := 0
        text_preview := "Processing failed: " ++ msg
        status := "processing_failed"
        error := msg }, fs1)

/-- Result of `GET /content/{content_id}`. -/
inductive GetResult where
  | ok (j : StoredJson)
  | notFound

/-- `get_content_info`: 404 when `data/{content_id}.json` does not
exist. -/
def get_content_info (content_id : String) (fs : FS) : GetResult :=
  match fs.dataFiles.lookup content_id with
  | some j => .ok j
  | none => .notFound

/-- Result of `DELETE /content/{content_id}`. -/
inductive DeleteResult where
  | ok (deleted_items : List String)
  | notFound

/-- `delete_content`: delete the upload files matching
`{content_id}_*`, the JSON record, and the image directory, collecting a
description of each removed artifact; raise 404 when nothing was
deleted. -/
def delete_content (content_id : String) (fs : FS) : DeleteResult × FS :=
  let pfx := content_id ++ "_"
  let pdfMatches := fs.uploads.filter (fun f => pfx.isPrefixOf f)
  let items1 := pdfMatches.map (fun f => "PDF file: " ++ f)
  let fs1 : FS := { fs with uploads := fs.uploads.filter (fun f => ¬ pfx.isPrefixOf f) }
  let hasJson := (fs1.dataFiles.lookup content_id).isSome
  let items2 := if hasJson then ["Data file: " ++ content_id ++ ".json"] else []
  let fs2 : FS := if hasJson
    then { fs1 with dataFiles := fs1.dataFiles.filter (fun p => p.1 ≠ content_id) }
    else fs1
  let hasImg := content_id ∈ fs2.imageDirs
  let items3 := if hasImg then ["Images directory: " ++ content_id] else []
  let fs3 : FS := if hasImg
    then { fs2 with imageDirs := fs2.imageDirs.filter (fun d => d ≠ content_id) }
    else fs2
  let deleted := items1 ++ items2 ++ items3
  if deleted = [] then (.notFound, fs3) else (.ok deleted, fs3)

/-! ## YouTube transcript model (`src/youtube_transcript.py`, `src/app.py`) -/

/-- The character class `[0-9A-Za-z_-]` of `YOUTUBE_REGEX`. -/
def ytIdChar (c : Char) : Bool :=
  c.isAlpha || c.isDigit || c = '_' || c = '-'

/-- The literal alternatives of `YOUTUBE_REGEX`
(`youtu.be/` or `youtube.com/` followed by `watch?v=`, `embed/` or
`v/`). At any position at most one alternative matches (their first
characters after the common stem differ), so no backtracking between
alternatives is possible. -/
def ytStems : List String :=
  ["youtu.be/", "youtube.com/watch?v=", "youtube.com/embed/", "youtube.com/v/"]

/-- Attempt a regex match at the current position: one of the literal
alternatives followed by exactly 11 id characters. -/
def ytMatchAt (cs : List Char) : Option String :=
  (ytStems.filterMap fun p =>
    if p.data.isPrefixOf cs then
      if 11 ≤ (cs.drop p.length).length ∧ ((cs.drop p.length).take 11).all ytIdChar then
        some (String.mk ((cs.drop p.length).take 11))
      else none
    else none).head?

/-- `YOUTUBE_REGEX.search(url)`: leftmost match wins. -/
def extractVideoId : List Char → Option String
  | [] => none
  | c :: cs =>
    match ytMatchAt (c :: cs) with
    | some v => some v
    | none => extractVideoId cs

/-- Result of `extract_youtube_transcript`: the concatenated transcript,
or the `UnboundLocalError` hit by `return final_transcript` when the
regex found no id (`final_transcript` is only assigned inside
`if v_id:`). -/
inductive YTExtract where
  | ok (transcript : String)
  | unboundLocalError

/-- The `final_transcript += " " + snippet.text` loop. -/
def ytConcat (snippets : List String) : String :=
  snippets.foldl (fun acc s => acc ++ " " ++ s) ""

/-- `extract_youtube_transcript(url)`, with the external
`YouTubeTranscriptApi().fetch` modelled as a function from video id to the
snippet texts it returns (an empty fetch and a skipped loop both leave
`final_transcript = ""`). -/
def extract_youtube_transcript (url : String) (fetch : String → List String) :
    YTExtract :=
  match extractVideoId url.data with
  | some vid => .ok (ytConcat (fetch vid))
  | none => .unboundLocalError

/-- Substring test (Python `needle in haystack`). -/
def isSubList (needle : List Char) : List Char → Bool
  | [] => needle.isPrefixOf []
  | c :: cs => needle.isPrefixOf (c :: cs) || isSubList needle cs

def strContains (haystack needle : String) : Bool :=
  isSubList needle.data haystack.data

/-- Python `s.split()` (split on whitespace runs, dropping empties).
The accumulator holds the current word reversed. -/
def pyWordsAux : List Char → List Char → List (List Char)
  | acc, [] => if acc = [] then [] else [acc.reverse]
  | acc, c :: cs =>
    if pyWS c then
      if acc = [] then pyWordsAux [] cs else acc.reverse :: pyWordsAux [] cs
    else pyWordsAux (c :: acc) cs

def pyWords (s : List Char) : List (List Char) := pyWordsAux [] s

/-- Python `" ".join(s.split())` — the whitespace normalization applied
to the transcript by the handler. -/
def pyNormalizeL (s : List Char) : List Char := List.intercalate [' '] (pyWords s)

def pyNormalize (s : String) : String := String.mk (pyNormalizeL s.data)

/-- Outcome of the `/youtube-transcript` handler: the persisted record,
or an `HTTPException` with its status code. -/
inductive YTOutcome where
  | ok (data : TranscriptData)
  | httpError (status : Nat) (detail : String)

/-- The `except Exception` classifier at the bottom of the handler:
specific substrings of the message map to 404s, anything else to 500. -/
def classifyYTError (msg : String) : YTOutcome :=
  if strContains msg "No transcripts were found" then
    .httpError 404 "No transcript available for this video. The video may not have captions enabled."
  else if strContains msg "Video unavailable" || strContains msg "does not exist" then
    .httpError 404 "Video not found or unavailable. Please check the URL."
  else if strContains msg "TranscriptsDisabled" then
    .httpError 404 "Transcripts are disabled for this video."
  else
    .httpError 500 ("Error extracting transcript: " ++ msg)

/-- The message of the `UnboundLocalError` raised by
`extract_youtube_transcript` on the no-id path. -/
def unboundLocalMsg : String :=
  "cannot access local variable 'final_transcript' where it is not associated with a value"

/-- The `/youtube-transcript` handler (`get_youtube_transcript` in
`src/app.py`). `content_id` stands for the generated uuid and `now` for
`datetime.now().isoformat()`. -/
def get_youtube_transcript (url : String) (fetch : String → List String)
    (content_id now : String) (fs : FS) : YTOutcome × FS :=
  if ¬ (strContains url "youtube.com" || strContains url "youtu.be") then
    (.httpError 400 "Invalid YouTube URL", fs)
  else
    match extract_youtube_transcript url fetch with
    | .unboundLocalError => (classifyYTError unboundLocalMsg, fs)
    | .ok raw =>
      if raw = "" then
        (.httpError 404
          "No transcript available for this video. The video may not have captions or transcripts enabled.",
          fs)
      else
        let transcript := pyNormalize raw
        let data : TranscriptData :=
          { content_id := content_id
            content_type := "youtube"
            title := "YouTube Video Transcript"
            url := url
            text_length := transcript.length
            text_preview :=
              if 200 < transcript.length then transcript.take 200 ++ "..." else transcript
            status := "processed"
            transcript := transcript
            processed_at := now }
        (.ok data, { fs with dataFiles := setJson fs.dataFiles content_id (.yt data) })

/-! ## Theorems about the PDF pipeline -/

/-- The record assembled by `process_pdf_file` on success. -/
def mkProcessed (doc : PdfDoc) (content_id now : String) : ProcessedData :=
  { content_id := content_id
    pdf_info := get_pdf_info doc
    total_pages := (extract_content_all_pages doc).length
    processed_at := now
    pages := (extract_content_all_pages doc).map buildPage }

/-- The filesystem after the extraction side effects. -/
def fsAfterExtract (doc : PdfDoc) (content_id : String) (fs : FS) : FS :=
  { fs with imageDirs :=
      if imageDirCreated doc then addIfAbsent content_id fs.imageDirs
      else fs.imageDirs }

theorem process_eq_openErr {doc : PdfDoc} {cid now : String} {fs : FS} {msg : String}
    (hoe : doc.openErr = some msg) :
    process_pdf_file doc cid now fs =
      (.error (.processingError ("Error reading PDF file: " ++ msg)), fs) := by
  unfold process_pdf_file
  rw [hoe]

theorem process_eq_sizeLimit {doc : PdfDoc} {cid now : String} {fs : FS}
    (hoe : doc.openErr = none) (hsz : 100000 < totalChars doc) :
    process_pdf_file doc cid now fs =
      (.error (.sizeLimit (totalChars doc)), fsAfterExtract doc cid fs) := by
  unfold process_pdf_file fsAfterExtract
  rw [hoe]
  simp only [if_pos hsz]

theorem process_eq_ok {doc : PdfDoc} {cid now : String} {fs : FS}
    (hoe : doc.openErr = none) (hsz : ¬ 100000 < totalChars doc) :
    process_pdf_file doc cid now fs =
      (.ok (mkProcessed doc cid now),
        { fsAfterExtract doc cid fs with
            dataFiles := setJson (fsAfterExtract doc cid fs).dataFiles cid
              (.pdf (mkProcessed doc cid now)) }) := by
  unfold process_pdf_file fsAfterExtract mkProcessed
  rw [hoe]
  simp only [if_neg hsz]

theorem lookup_setJson_self (l : List (String × StoredJson)) (k : String) (v : StoredJson) :
    (setJson l k v).lookup k = some v := by
  unfold setJson
  simp [List.lookup]

/-- C7: in every record produced by ingestion, each page satisfies
`text_length = len(text)` and `image_count = len(images)`. -/
theorem process_pdf_page_invariants (doc : PdfDoc) (cid now : String) (fs : FS)
    (data : ProcessedData) (fs2 : FS)
    (h : process_pdf_file doc cid now fs = (.ok data, fs2)) :
    ∀ p ∈ data.pages, p.text_length = p.text.length ∧ p.image_count = p.images.length := by
  cases hoe : doc.openErr with
  | some msg =>
    rw [process_eq_openErr hoe] at h
    simp at h
  | none =>
    by_cases hsz : 100000 < totalChars doc
    · rw [process_eq_sizeLimit hoe hsz] at h
      simp at h
    · rw [process_eq_ok hoe hsz] at h
      simp only [Prod.mk.injEq, Except.ok.injEq] at h
      obtain ⟨hdata, _⟩ := h
      subst hdata
      intro p hp
      unfold mkProcessed at hp
      simp only [List.mem_map] at hp
      obtain ⟨pc, _, hpc⟩ := hp
      subst hpc
      exact ⟨rfl, rfl⟩

/-- C7 witness document: two pages, one with an image. -/
def docW : PdfDoc :=
  { openErr := none
    pages := [.ok "hello" [⟨"i.png", some "PNG", some (2, 3), "QUJD", "p/i.png"⟩],
              .ok "world" []]
    metadata := some [("/Title", "T")]
    path := "w.pdf" }

theorem process_pdf_page_invariants_witness :
    ∃ data fs2, process_pdf_file docW "w" "t" ⟨[], [], []⟩ = (.ok data, fs2) ∧
      ∀ p ∈ data.pages, p.text_length = p.text.length ∧ p.image_count = p.images.length := by
  refine ⟨mkProcessed docW "w" "t",
    { fsAfterExtract docW "w" ⟨[], [], []⟩ with
        dataFiles := setJson (fsAfterExtract docW "w" ⟨[], [], []⟩).dataFiles "w"
          (.pdf (mkProcessed docW "w" "t")) }, ?_, ?_⟩
  · exact process_eq_ok rfl (by decide)
  · exact process_pdf_page_invariants docW "w" "t" ⟨[], [], []⟩ _ _
      (process_eq_ok rfl (by decide))

/-- C6: if opening raises (any unexpected, non-size-limit error), the
handler returns the degraded `processing_failed` record, the uploaded
file is retained, and nothing is persisted. -/
theorem upload_pdf_processing_failed (doc : PdfDoc) (filename file_id now : String)
    (faults : CleanupFaults) (fs : FS) (msg : String) (h : doc.openErr = some msg) :
    ∃ fs2,
      upload_pdf doc filename file_id now faults fs =
        (.processingFailed
          { content_id := file_id
            content_type := "pdf-file"
            title := filename
            text_length := 0
            text_preview := "Processing failed: " ++ ("Error reading PDF file: " ++ msg)
            status := "processing_failed"
            error := "Error reading PDF file: " ++ msg }, fs2) ∧
      uploadFileName file_id filename ∈ fs2.uploads ∧
      fs2.dataFiles = fs.dataFiles ∧
      fs2.imageDirs = fs.imageDirs := by
  refine ⟨{ fs with uploads := addIfAbsent (uploadFileName file_id filename) fs.uploads },
    ?_, ?_, rfl, rfl⟩
  · unfold upload_pdf
    simp only [process_eq_openErr h]
  · unfold addIfAbsent
    by_cases hmem : uploadFileName file_id filename ∈ fs.uploads
    · simpa [hmem] using hmem
    · simp [hmem]

def docBad : PdfDoc := { openErr := some "boom", pages := [], metadata := none, path := "b.pdf" }

theorem upload_pdf_processing_failed_witness :
    docBad.openErr = some "boom" ∧
    ∃ fs2,
      upload_pdf docBad "f.pdf" "id0" "t" noFaults ⟨[], [], []⟩ =
        (.processingFailed
          { content_id := "id0"
            content_type := "pdf-file"
            title := "f.pdf"
            text_length := 0
            text_preview := "Processing failed: " ++ ("Error reading PDF file: " ++ "boom")
            status := "processing_failed"
            error := "Error reading PDF file: " ++ "boom" }, fs2) ∧
      uploadFileName "id0" "f.pdf" ∈ fs2.uploads ∧
      fs2.dataFiles = FS.dataFiles ⟨[], [], []⟩ ∧
      fs2.imageDirs = FS.imageDirs ⟨[], [], []⟩ :=
  ⟨rfl, upload_pdf_processing_failed docBad "f.pdf" "id0" "t" noFaults ⟨[], [], []⟩ "boom" rfl⟩

/-- C2: ingestion fails with the size-limit error carrying the measured
count exactly when the summed page-text length strictly exceeds 100000;
at or below the limit the record is assembled and persisted. -/
theorem process_pdf_size_guard (doc : PdfDoc) (cid now : String) (fs : FS)
    (hoe : doc.openErr = none) :
    (∀ n, (process_pdf_file doc cid now fs).1 = .error (.sizeLimit n) ↔
      (n = totalChars doc ∧ 100000 < n)) ∧
    (totalChars doc ≤ 100000 →
      ∃ data, (process_pdf_file doc cid now fs).1 = .ok data ∧
        ((process_pdf_file doc cid now fs).2).dataFiles.lookup cid = some (.pdf data)) := by
  constructor
  · intro n
    by_cases hsz : 100000 < totalChars doc
    · rw [process_eq_sizeLimit hoe hsz]
      constructor
      · intro he
        simp only [Except.error.injEq, PdfError.sizeLimit.injEq] at he
        exact ⟨he.symm, he ▸ hsz⟩
      · intro ⟨he, _⟩
        rw [he]
    · rw [process_eq_ok hoe hsz]
      constructor
      · intro he
        simp at he
      · intro ⟨he, hgt⟩
        subst he
        exact absurd hgt hsz
  · intro hle
    have hsz : ¬ 100000 < totalChars doc := by omega
    rw [process_eq_ok hoe hsz]
    exact ⟨mkProcessed doc cid now, rfl, lookup_setJson_self _ _ _⟩

/-- C2 witness document: a single page holding exactly 100001 characters
(and a second witness use at 3 characters through `docW`). -/
def doc100001 : PdfDoc :=
  { openErr := none
    pages := [.ok (String.mk (List.replicate 100001 'a')) []]
    metadata := none
    path := "big.pdf" }

theorem totalChars_single (s : String) (p : String) :
    totalChars { openErr := none, pages := [.ok s []], metadata := none, path := p }
      = s.length := rfl

theorem process_pdf_size_guard_witness :
    doc100001.openErr = none ∧
    ((∀ n, (process_pdf_file doc100001 "i" "t" ⟨[], [], []⟩).1 = .error (.sizeLimit n) ↔
        (n = totalChars doc100001 ∧ 100000 < n)) ∧
      (totalChars doc100001 ≤ 100000 →
        ∃ data, (process_pdf_file doc100001 "i" "t" ⟨[], [], []⟩).1 = .ok data ∧
          ((process_pdf_file doc100001 "i" "t" ⟨[], [], []⟩).2).dataFiles.lookup "i"
            = some (.pdf data))) ∧
    totalChars doc100001 = 100001 :=
  ⟨rfl, process_pdf_size_guard doc100001 "i" "t" ⟨[], [], []⟩ rfl, by
    rw [show totalChars doc100001 = (String.mk (List.replicate 100001 'a')).length from
      totalChars_single _ _]
    show (List.replicate 100001 'a').length = 100001
    rw [List.length_replicate]⟩

/-- Proof-side alias for the per-page function of the document walker. -/
def walkPage (p : Nat × PageResult) : PageContent :=
  match p.2 with
  | .ok t imgs => ⟨p.1, t, imgs⟩
  | .err _ => ⟨p.1, "", []⟩

theorem extract_eq_map_walkPage (doc : PdfDoc) :
    extract_content_all_pages doc = doc.pages.enum.map walkPage := rfl

theorem walkPage_page_number (p : Nat × PageResult) : (walkPage p).page_number = p.1 := by
  unfold walkPage
  cases p.2 <;> rfl

/-- C3: the ingestion result has exactly `page_count` pages, numbered
`1..page_count` in order; a failed page yields an empty record at its
position, a successful page keeps its text and image count. -/
theorem process_pdf_pages_structure (doc : PdfDoc) (cid now : String) (fs : FS)
    (data : ProcessedData) (fs2 : FS)
    (h : process_pdf_file doc cid now fs = (.ok data, fs2)) :
    data.pages.length = doc.pages.length ∧
    (∀ i (hi : i < data.pages.length), (data.pages.get ⟨i, hi⟩).page_number = i + 1) ∧
    (∀ i (hi : i < doc.pages.length) (hd : i < data.pages.length) (r : Bool),
        doc.pages.get ⟨i, hi⟩ = .err r →
        (data.pages.get ⟨i, hd⟩).text = "" ∧ (data.pages.get ⟨i, hd⟩).image_count = 0) ∧
    (∀ i (hi : i < doc.pages.length) (hd : i < data.pages.length) (t : String)
        (imgs : List ImgInfo),
        doc.pages.get ⟨i, hi⟩ = .ok t imgs →
        (data.pages.get ⟨i, hd⟩).text = t ∧
        (data.pages.get ⟨i, hd⟩).image_count = imgs.length) := by
  have hdata : data = mkProcessed doc cid now := by
    cases hoe : doc.openErr with
    | some msg => rw [process_eq_openErr hoe] at h; simp at h
    | none =>
      by_cases hsz : 100000 < totalChars doc
      · rw [process_eq_sizeLimit hoe hsz] at h; simp at h
      · rw [process_eq_ok hoe hsz] at h
        simp only [Prod.mk.injEq, Except.ok.injEq] at h
        exact h.1.symm
  subst hdata
  have hpages : (mkProcessed doc cid now).pages = (doc.pages.enum.map walkPage).map buildPage := by
    unfold mkProcessed
    rw [extract_eq_map_walkPage]
  constructor
  · rw [hpages]
    simp
  refine ⟨?_, ?_, ?_⟩
  · intro i hi
    have hi2 : i < ((doc.pages.enum.map walkPage).map buildPage).length := by
      rw [← hpages]; exact hi
    rw [List.get_of_eq hpages ⟨i, hi⟩]
    simp only [List.get_eq_getElem, List.getElem_map, List.getElem_enum]
    show (buildPage (walkPage (i, _))).page_number = i + 1
    unfold buildPage
    rw [walkPage_page_number]
  · intro i hi hd r herr
    have hget : doc.pages.get ⟨i, hi⟩ = doc.pages[i] := rfl
    rw [List.get_of_eq hpages ⟨i, hd⟩]
    simp only [List.get_eq_getElem, List.getElem_map, List.getElem_enum]
    rw [hget] at herr
    show (buildPage (walkPage (i, doc.pages[i]))).text = "" ∧
      (buildPage (walkPage (i, doc.pages[i]))).image_count = 0
    rw [show doc.pages[i] = PageResult.err r from herr]
    exact ⟨rfl, rfl⟩
  · intro i hi hd t imgs hok
    have hget : doc.pages.get ⟨i, hi⟩ = doc.pages[i] := rfl
    rw [List.get_of_eq hpages ⟨i, hd⟩]
    simp only [List.get_eq_getElem, List.getElem_map, List.getElem_enum]
    rw [hget] at hok
    show (buildPage (walkPage (i, doc.pages[i]))).text = t ∧
      (buildPage (walkPage (i, doc.pages[i]))).image_count = imgs.length
    rw [show doc.pages[i] = PageResult.ok t imgs from hok]
    refine ⟨rfl, ?_⟩
    show (imgs.enum.map fun p => buildImage p.1 p.2).length = imgs.length
    simp

/-- C3 witness document: three pages where page 2 (0-indexed 1) fails. -/
def doc3 : PdfDoc :=
  { openErr := none
    pages := [.ok "one" [], .err false, .ok "three" []]
    metadata := none
    path := "three.pdf" }

theorem process_pdf_pages_structure_witness :
    process_pdf_file doc3 "c3" "t" ⟨[], [], []⟩ =
      (.ok (mkProcessed doc3 "c3" "t"),
        { fsAfterExtract doc3 "c3" ⟨[], [], []⟩ with
            dataFiles := setJson (fsAfterExtract doc3 "c3" ⟨[], [], []⟩).dataFiles "c3"
              (.pdf (mkProcessed doc3 "c3" "t")) }) ∧
    ((mkProcessed doc3 "c3" "t").pages.length = doc3.pages.length ∧
      (∀ i (hi : i < (mkProcessed doc3 "c3" "t").pages.length),
        ((mkProcessed doc3 "c3" "t").pages.get ⟨i, hi⟩).page_number = i + 1) ∧
      (∀ i (hi : i < doc3.pages.length)
          (hd : i < (mkProcessed doc3 "c3" "t").pages.length) (r : Bool),
          doc3.pages.get ⟨i, hi⟩ = .err r →
          ((mkProcessed doc3 "c3" "t").pages.get ⟨i, hd⟩).text = "" ∧
          ((mkProcessed doc3 "c3" "t").pages.get ⟨i, hd⟩).image_count = 0) ∧
      (∀ i (hi : i < doc3.pages.length)
          (hd : i < (mkProcessed doc3 "c3" "t").pages.length) (t : String)
          (imgs : List ImgInfo),
          doc3.pages.get ⟨i, hi⟩ = .ok t imgs →
          ((mkProcessed doc3 "c3" "t").pages.get ⟨i, hd⟩).text = t ∧
          ((mkProcessed doc3 "c3" "t").pages.get ⟨i, hd⟩).image_count = imgs.length)) :=
  ⟨process_eq_ok rfl (by decide),
    process_pdf_pages_structure doc3 "c3" "t" ⟨[], [], []⟩ _ _ (process_eq_ok rfl (by decide))⟩

/-! ## Delete endpoint -/

/-- No artifact of `content_id` exists: no upload file matching the
`{content_id}_*` glob, no JSON record, no image directory. -/
def noArtifacts (content_id : String) (fs : FS) : Prop :=
  (∀ f ∈ fs.uploads, ¬ (content_id ++ "_").isPrefixOf f) ∧
  fs.dataFiles.lookup content_id = none ∧
  content_id ∉ fs.imageDirs

theorem delete_eq_notFound {cid : String} {fs : FS} (h : noArtifacts cid fs) :
    delete_content cid fs = (.notFound, fs) := by
  obtain ⟨hup, hjson, himg⟩ := h
  unfold delete_content
  have h1 : fs.uploads.filter (fun f => (cid ++ "_").isPrefixOf f) = [] :=
    List.filter_eq_nil.mpr (fun f hf => by simpa using hup f hf)
  have h2 : fs.uploads.filter (fun f => ¬ (cid ++ "_").isPrefixOf f) = fs.uploads :=
    List.filter_eq_self.mpr (fun f hf => by simpa using hup f hf)
  simp only [h1, h2, hjson, List.map_nil, Option.isSome_none]
  simp [himg]

theorem lookup_filter_ne (l : List (String × StoredJson)) (k : String) :
    (l.filter fun p => p.1 ≠ k).lookup k = none := by
  induction l with
  | nil => rfl
  | cons p ps ih =>
    cases p with
    | mk a b =>
      by_cases hp : a = k
      · rw [List.filter_cons_of_neg (by simp [hp])]
        exact ih
      · rw [List.filter_cons_of_pos (by simp [hp])]
        have hne : (k == a) = false := by
          simp only [beq_eq_false_iff_ne]
          exact fun e => hp e.symm
        simp only [List.lookup, hne]
        exact ih

/-- The filesystem state after `delete_content` (identical in both the
404 and the success branch). -/
def deleteState (cid : String) (fs : FS) : FS :=
  let fs1 : FS := { fs with uploads := fs.uploads.filter (fun f => ¬ (cid ++ "_").isPrefixOf f) }
  let fs2 : FS := if (fs1.dataFiles.lookup cid).isSome
    then { fs1 with dataFiles := fs1.dataFiles.filter (fun p => p.1 ≠ cid) } else fs1
  if cid ∈ fs2.imageDirs
    then { fs2 with imageDirs := fs2.imageDirs.filter (fun d => d ≠ cid) } else fs2

theorem delete_content_snd (cid : String) (fs : FS) :
    (delete_content cid fs).2 = deleteState cid fs := by
  unfold delete_content
  dsimp only
  rw [apply_ite Prod.snd, ite_self]
  rfl

theorem delete_post_noArtifacts (cid : String) (fs : FS) :
    noArtifacts cid (delete_content cid fs).2 := by
  rw [delete_content_snd]
  simp only [deleteState]
  have hup : ∀ f ∈ fs.uploads.filter (fun f => ¬ (cid ++ "_").isPrefixOf f),
      ¬ (cid ++ "_").isPrefixOf f := by
    intro f hf
    have := (List.mem_filter.mp hf).2
    simpa using this
  by_cases hJ : ((({ fs with
      uploads := fs.uploads.filter (fun f => ¬ (cid ++ "_").isPrefixOf f) } : FS).dataFiles).lookup cid).isSome
  · simp only [if_pos hJ]
    have hjson := lookup_filter_ne fs.dataFiles cid
    by_cases hI : cid ∈ fs.imageDirs
    · simp only [if_pos hI]
      refine ⟨hup, hjson, ?_⟩
      intro hm
      have := (List.mem_filter.mp hm).2
      simp at this
    · simp only [if_neg hI]
      exact ⟨hup, hjson, hI⟩
  · simp only [if_neg hJ]
    have hjson : fs.dataFiles.lookup cid = none := by
      cases hc : fs.dataFiles.lookup cid with
      | none => rfl
      | some v => rw [show ({ fs with
          uploads := fs.uploads.filter (fun f => ¬ (cid ++ "_").isPrefixOf f) } : FS).dataFiles
            = fs.dataFiles from rfl, hc] at hJ; simp at hJ
    by_cases hI : cid ∈ fs.imageDirs
    · simp only [if_pos hI]
      refine ⟨hup, hjson, ?_⟩
      intro hm
      have := (List.mem_filter.mp hm).2
      simp at this
    · simp only [if_neg hI]
      exact ⟨hup, hjson, hI⟩

/-- C4 amended: deleting a content_id with no artifacts (including a
second delete of an already deleted id) yields NotFound (HTTP 404), not
an empty list; the state is unchanged. -/
theorem delete_content_nonexistent (cid : String) (fs : FS) :
    (noArtifacts cid fs → delete_content cid fs = (.notFound, fs)) ∧
    (∀ r fs2, delete_content cid fs = (.ok r, fs2) → delete_content cid fs2 = (.notFound, fs2)) := by
  constructor
  · exact delete_eq_notFound
  · intro r fs2 h
    have hfs2 : (delete_content cid fs).2 = fs2 := by rw [h]
    have hna : noArtifacts cid fs2 := hfs2 ▸ delete_post_noArtifacts cid fs
    exact delete_eq_notFound hna

theorem delete_content_nonexistent_witness :
    noArtifacts "abc" ⟨[], [], []⟩ ∧
      delete_content "abc" ⟨[], [], []⟩ = (.notFound, ⟨[], [], []⟩) := by
  have hna : noArtifacts "abc" ⟨[], [], []⟩ :=
    ⟨fun f hf => absurd hf (List.not_mem_nil f), rfl, List.not_mem_nil "abc"⟩
  exact ⟨hna, (delete_content_nonexistent "abc" ⟨[], [], []⟩).1 hna⟩

/-- C4 counterexample: deleting a nonexistent content_id raises
NotFound (HTTP 404) rather than returning an empty list. -/
theorem delete_content_nonexistent_counterexample :
    (delete_content "abc" ⟨[], [], []⟩).1 = DeleteResult.notFound ∧
      ∀ items : List String, (delete_content "abc" ⟨[], [], []⟩).1 ≠ DeleteResult.ok items := by
  refine ⟨rfl, ?_⟩
  intro items h
  rw [show (delete_content "abc" ⟨[], [], []⟩).1 = DeleteResult.notFound from rfl] at h
  exact DeleteResult.noConfusion h

/-! ## C1: rollback on the size limit -/

theorem mem_addIfAbsent {f x : String} {l : List String}
    (h : f ∈ addIfAbsent x l) : f = x ∨ f ∈ l := by
  unfold addIfAbsent at h
  by_cases hx : x ∈ l
  · rw [if_pos hx] at h
    exact Or.inr h
  · rw [if_neg hx] at h
    exact List.mem_cons.mp h

/-- C1: when extraction trips the 100000-character limit, the upload
handler answers TooLarge with the measured count, and each of the three
cleanup deletions acts independently: whichever of the unlink / rmtree
calls does not fault leaves no trace of the content id, so afterwards
the JSON lookup is NotFound, no upload file keyed by the id remains,
and the image directory is gone, regardless of the other two faults. -/
theorem upload_pdf_size_rollback (doc : PdfDoc) (filename file_id now : String)
    (faults : CleanupFaults) (fs : FS)
    (hoe : doc.openErr = none) (hsz : 100000 < totalChars doc)
    (hfresh : ∀ f ∈ fs.uploads, ¬ (file_id ++ "_").isPrefixOf f) :
    (upload_pdf doc filename file_id now faults fs).1 = .tooLarge (totalChars doc) ∧
    (faults.jsonDel = false →
      get_content_info file_id (upload_pdf doc filename file_id now faults fs).2
        = .notFound) ∧
    (faults.pdfDel = false →
      ∀ f ∈ ((upload_pdf doc filename file_id now faults fs).2).uploads,
        ¬ (file_id ++ "_").isPrefixOf f) ∧
    (faults.imgDel = false →
      file_id ∉ ((upload_pdf doc filename file_id now faults fs).2).imageDirs) := by
  obtain ⟨p, j, i⟩ := faults
  have hU : ∀ pp jj ii : Bool, upload_pdf doc filename file_id now ⟨pp, jj, ii⟩ fs =
      (.tooLarge (totalChars doc),
        let fname := uploadFileName file_id filename
        let fs1 := fsAfterExtract doc file_id
          { fs with uploads := addIfAbsent fname fs.uploads }
        let fs2 := if pp then fs1
          else { fs1 with uploads := fs1.uploads.filter (fun f => f ≠ fname) }
        let fs3 := if jj then fs2
          else { fs2 with dataFiles := fs2.dataFiles.filter (fun q => q.1 ≠ file_id) }
        if ii then fs3
        else { fs3 with imageDirs := fs3.imageDirs.filter (fun d => d ≠ file_id) }) := by
    intro pp jj ii
    unfold upload_pdf
    simp only [process_eq_sizeLimit hoe hsz]
  refine ⟨?_, ?_, ?_, ?_⟩
  · rw [hU p j i]
  · intro hj
    have hj' : j = false := hj
    subst hj'
    have hdf : ((upload_pdf doc filename file_id now ⟨p, false, i⟩ fs).2).dataFiles
        = fs.dataFiles.filter (fun q => q.1 ≠ file_id) := by
      rw [hU p false i]
      cases p <;> cases i <;> rfl
    unfold get_content_info
    rw [hdf, lookup_filter_ne]
  · intro hp
    have hp' : p = false := hp
    subst hp'
    have hupl : ((upload_pdf doc filename file_id now ⟨false, j, i⟩ fs).2).uploads
        = (addIfAbsent (uploadFileName file_id filename) fs.uploads).filter
            (fun f => f ≠ uploadFileName file_id filename) := by
      rw [hU false j i]
      cases j <;> cases i <;> rfl
    rw [hupl]
    intro f hf
    obtain ⟨hmem, hne⟩ := List.mem_filter.mp hf
    have hne' : f ≠ uploadFileName file_id filename := by simpa using hne
    rcases mem_addIfAbsent hmem with h | h
    · exact absurd h hne'
    · exact hfresh f h
  · intro hi
    have hi' : i = false := hi
    subst hi'
    have himg : ((upload_pdf doc filename file_id now ⟨p, j, false⟩ fs).2).imageDirs
        = ((fsAfterExtract doc file_id fs).imageDirs).filter (fun d => d ≠ file_id) := by
      rw [hU p j false]
      cases p <;> cases j <;> rfl
    rw [himg]
    intro hm
    have := (List.mem_filter.mp hm).2
    simp at this

theorem upload_pdf_size_rollback_witness :
    doc100001.openErr = none ∧ 100000 < totalChars doc100001 ∧
    ((upload_pdf doc100001 "f.pdf" "u1" "t" noFaults ⟨[], [], []⟩).1
        = .tooLarge (totalChars doc100001) ∧
      (noFaults.jsonDel = false →
        get_content_info "u1" (upload_pdf doc100001 "f.pdf" "u1" "t" noFaults ⟨[], [], []⟩).2
          = .notFound) ∧
      (noFaults.pdfDel = false →
        ∀ f ∈ ((upload_pdf doc100001 "f.pdf" "u1" "t" noFaults ⟨[], [], []⟩).2).uploads,
          ¬ ("u1" ++ "_").isPrefixOf f) ∧
      (noFaults.imgDel = false →
        "u1" ∉ ((upload_pdf doc100001 "f.pdf" "u1" "t" noFaults ⟨[], [], []⟩).2).imageDirs)) := by
  have hsz : 100000 < totalChars doc100001 := by
    rw [show totalChars doc100001 = (String.mk (List.replicate 100001 'a')).length from
      totalChars_single _ _]
    show 100000 < (List.replicate 100001 'a').length
    rw [List.length_replicate]
    omega
  exact ⟨rfl, hsz, upload_pdf_size_rollback doc100001 "f.pdf" "u1" "t" noFaults ⟨[], [], []⟩
    rfl hsz (fun f hf => absurd hf (List.not_mem_nil f))⟩

/-! ## C9: transcript whitespace normalization -/

/-- `" ".join` written by structural recursion (bridged to
`List.intercalate` below). -/
def spJoin : List (List Char) → List Char
  | [] => []
  | [w] => w
  | w :: u :: ws => w ++ ' ' :: spJoin (u :: ws)

theorem intercalate_sp_eq_spJoin : ∀ L : List (List Char),
    List.intercalate [' '] L = spJoin L
  | [] => by simp [List.intercalate, spJoin]
  | [w] => by simp [List.intercalate, spJoin]
  | w :: u :: ws => by
    rw [show spJoin (w :: u :: ws) = w ++ ' ' :: spJoin (u :: ws) from rfl,
        ← intercalate_sp_eq_spJoin (u :: ws)]
    simp [List.intercalate, List.intersperse]

theorem pyWordsAux_sound : ∀ (s acc : List Char), (∀ c ∈ acc, pyWS c = false) →
    ∀ w ∈ pyWordsAux acc s, w ≠ [] ∧ ∀ c ∈ w, pyWS c = false
  | [], acc, hacc, w, hw => by
    unfold pyWordsAux at hw
    by_cases ha : acc = []
    · rw [if_pos ha] at hw
      exact absurd hw (List.not_mem_nil w)
    · rw [if_neg ha] at hw
      have hwr : w = acc.reverse := by simpa using hw
      subst hwr
      exact ⟨by simpa using ha, fun c hc => hacc c (List.mem_reverse.mp hc)⟩
  | c :: cs, acc, hacc, w, hw => by
    unfold pyWordsAux at hw
    by_cases hc : pyWS c = true
    · rw [if_pos hc] at hw
      by_cases ha : acc = []
      · rw [if_pos ha] at hw
        exact pyWordsAux_sound cs [] (by simp) w hw
      · rw [if_neg ha] at hw
        rcases List.mem_cons.mp hw with h | h
        · subst h
          exact ⟨by simpa using ha, fun d hd => hacc d (List.mem_reverse.mp hd)⟩
        · exact pyWordsAux_sound cs [] (by simp) w h
    · rw [if_neg hc] at hw
      refine pyWordsAux_sound cs (c :: acc) ?_ w hw
      intro d hd
      rcases List.mem_cons.mp hd with h | h
      · subst h
        simpa using hc
      · exact hacc d h

theorem pyWords_sound (s : List Char) :
    ∀ w ∈ pyWords s, w ≠ [] ∧ ∀ c ∈ w, pyWS c = false :=
  pyWordsAux_sound s [] (by simp)

theorem chain_of_no_ws {w : List Char} (h : ∀ c ∈ w, pyWS c = false) :
    List.Chain' (fun x y => ¬(pyWS x = true ∧ pyWS y = true)) w := by
  induction w with
  | nil => simp
  | cons a t ih =>
    refine List.chain'_cons'.mpr ⟨?_, ih fun c hc => h c (List.mem_cons_of_mem a hc)⟩
    intro y _ hpair
    have ha := h a (List.mem_cons_self a t)
    rw [ha] at hpair
    exact absurd hpair.1 (by simp)

theorem spJoin_head : ∀ (u : List Char) (ws : List (List Char)), u ≠ [] →
    (spJoin (u :: ws)).head? = u.head?
  | _, [], _ => rfl
  | u, v :: ws, hu => by
    show (u ++ ' ' :: spJoin (v :: ws)).head? = u.head?
    rw [List.head?_append]
    cases u with
    | nil => exact absurd rfl hu
    | cons a t => rfl

theorem spJoin_ne_nil {u : List Char} (ws : List (List Char)) (hu : u ≠ []) :
    spJoin (u :: ws) ≠ [] := by
  intro hnil
  have hh := spJoin_head u ws hu
  rw [hnil] at hh
  cases u with
  | nil => exact hu rfl
  | cons a t => exact Option.noConfusion hh

theorem spJoin_chain : ∀ L : List (List Char),
    (∀ w ∈ L, w ≠ [] ∧ ∀ c ∈ w, pyWS c = false) →
    List.Chain' (fun x y => ¬(pyWS x = true ∧ pyWS y = true)) (spJoin L)
  | [], _ => by simp [spJoin]
  | [w], h => chain_of_no_ws (h w (List.mem_cons_self w [])).2
  | w :: u :: ws, h => by
    show List.Chain' _ (w ++ ' ' :: spJoin (u :: ws))
    have hw := h w (List.mem_cons_self w (u :: ws))
    have hu := h u (List.mem_cons_of_mem w (List.mem_cons_self u ws))
    refine List.chain'_append.mpr ⟨chain_of_no_ws hw.2, ?_, ?_⟩
    · refine List.chain'_cons'.mpr ⟨?_, spJoin_chain (u :: ws)
        (fun v hv => h v (List.mem_cons_of_mem w hv))⟩
      intro y hy hpair
      have hyu : y ∈ u := by
        rw [spJoin_head u ws hu.1] at hy
        exact List.mem_of_mem_head? hy
      have := hu.2 y hyu
      rw [this] at hpair
      exact absurd hpair.2 (by simp)
    · intro x hx y _ hpair
      have hxw : x ∈ w := List.mem_of_mem_getLast? hx
      have := hw.2 x hxw
      rw [this] at hpair
      exact absurd hpair.1 (by simp)

theorem spJoin_ws_space : ∀ L : List (List Char),
    (∀ w ∈ L, ∀ c ∈ w, pyWS c = false) →
    ∀ c ∈ spJoin L, pyWS c = true → c = ' '
  | [], _, c, hc, _ => absurd hc (List.not_mem_nil c)
  | [w], h, c, hc, hws => by
    have := h w (List.mem_cons_self w []) c hc
    rw [this] at hws
    exact absurd hws (by simp)
  | w :: u :: ws, h, c, hc, hws => by
    rcases List.mem_append.mp hc with h1 | h1
    · have := h w (List.mem_cons_self w (u :: ws)) c h1
      rw [this] at hws
      exact absurd hws (by simp)
    · rcases List.mem_cons.mp h1 with h2 | h2
      · exact h2
      · exact spJoin_ws_space (u :: ws)
          (fun v hv => h v (List.mem_cons_of_mem w hv)) c h2 hws

theorem spJoin_head_not_ws : ∀ L : List (List Char),
    (∀ w ∈ L, w ≠ [] ∧ ∀ c ∈ w, pyWS c = false) →
    ∀ d, (spJoin L).head? = some d → pyWS d = false
  | [], _, d, hd => by simp [spJoin] at hd
  | u :: ws, h, d, hd => by
    have hu := h u (List.mem_cons_self u ws)
    rw [spJoin_head u ws hu.1] at hd
    exact hu.2 d (List.mem_of_mem_head? hd)

theorem spJoin_getLast_not_ws : ∀ L : List (List Char),
    (∀ w ∈ L, w ≠ [] ∧ ∀ c ∈ w, pyWS c = false) →
    ∀ d, (spJoin L).getLast? = some d → pyWS d = false
  | [], _, d, hd => by simp [spJoin] at hd
  | [w], h, d, hd =>
    (h w (List.mem_cons_self w [])).2 d (List.mem_of_mem_getLast? hd)
  | w :: u :: ws, h, d, hd => by
    have hu := h u (List.mem_cons_of_mem w (List.mem_cons_self u ws))
    have hrest := spJoin_ne_nil ws hu.1
    rw [show spJoin (w :: u :: ws) = w ++ ' ' :: spJoin (u :: ws) from rfl,
        List.getLast?_append_of_ne_nil w (by simp)] at hd
    cases hsp : spJoin (u :: ws) with
    | nil => exact absurd hsp hrest
    | cons r rs =>
      rw [hsp, List.getLast?_cons_cons] at hd
      refine spJoin_getLast_not_ws (u :: ws)
        (fun v hv => h v (List.mem_cons_of_mem w hv)) d ?_
      rw [hsp]
      exact hd

theorem classifyYTError_ne_ok (m : String) (d : TranscriptData) :
    classifyYTError m ≠ .ok d := by
  unfold classifyYTError
  split
  · exact fun h => YTOutcome.noConfusion h
  · split
    · exact fun h => YTOutcome.noConfusion h
    · split
      · exact fun h => YTOutcome.noConfusion h
      · exact fun h => YTOutcome.noConfusion h

/-- C9: a successful `/youtube-transcript` call persists a record whose
`transcript` is `" ".join(raw.split())` of the concatenated snippets and
whose `text_length` is that transcript's length; the stored transcript
is whitespace-normalized: every whitespace character in it is the single
space `' '`, no two adjacent characters are both whitespace, and it
neither starts nor ends with a whitespace character. -/
theorem youtube_transcript_normalized (url : String) (fetch : String → List String)
    (cid now : String) (fs : FS) (data : TranscriptData) (fs2 : FS)
    (h : get_youtube_transcript url fetch cid now fs = (.ok data, fs2)) :
    (∃ vid, extractVideoId url.data = some vid ∧
      data.transcript = pyNormalize (ytConcat (fetch vid))) ∧
    data.text_length = data.transcript.length ∧
    fs2.dataFiles.lookup cid = some (.yt data) ∧
    List.Chain' (fun x y => ¬(pyWS x = true ∧ pyWS y = true)) data.transcript.data ∧
    (∀ c ∈ data.transcript.data, pyWS c = true → c = ' ') ∧
    (∀ d, data.transcript.data.head? = some d → pyWS d = false) ∧
    (∀ d, data.transcript.data.getLast? = some d → pyWS d = false) := by
  unfold get_youtube_transcript at h
  split at h
  · exact absurd (congrArg Prod.fst h) (by simp)
  · cases hvid : extractVideoId url.data with
    | none =>
      rw [show extract_youtube_transcript url fetch = .unboundLocalError from by
        unfold extract_youtube_transcript
        rw [hvid]] at h
      exact absurd (congrArg Prod.fst h) (classifyYTError_ne_ok unboundLocalMsg data)
    | some vid =>
      rw [show extract_youtube_transcript url fetch = .ok (ytConcat (fetch vid)) from by
        unfold extract_youtube_transcript
        rw [hvid]] at h
      dsimp only at h
      by_cases hraw : ytConcat (fetch vid) = ""
      · rw [if_pos hraw] at h
        exact absurd (congrArg Prod.fst h) (by simp)
      · rw [if_neg hraw] at h
        rw [Prod.mk.injEq] at h
        obtain ⟨h1, h2⟩ := h
        injection h1 with h1
        have hwords := pyWords_sound (ytConcat (fetch vid)).data
        have ht : data.transcript = pyNormalize (ytConcat (fetch vid)) := by
          rw [← h1]
        have htr : data.transcript.data
            = spJoin (pyWords (ytConcat (fetch vid)).data) := by
          rw [ht]
          show pyNormalizeL (ytConcat (fetch vid)).data = _
          unfold pyNormalizeL
          exact intercalate_sp_eq_spJoin _
        refine ⟨⟨vid, rfl, ht⟩, ?_, ?_, ?_, ?_, ?_, ?_⟩
        · rw [← h1]
        · rw [← h2, ← h1]
          exact lookup_setJson_self _ _ _
        · rw [htr]
          exact spJoin_chain _ hwords
        · rw [htr]
          exact spJoin_ws_space _ (fun w hw => (hwords w hw).2)
        · rw [htr]
          exact spJoin_head_not_ws _ hwords
        · rw [htr]
          exact spJoin_getLast_not_ws _ hwords

/-- The record persisted for the witness URL below. -/
def ytWdata : TranscriptData :=
  { content_id := "c1"
    content_type := "youtube"
    title := "YouTube Video Transcript"
    url := "https://youtu.be/dQw4w9WgXcQ"
    text_length := 11
    text_preview := "hello world"
    status := "processed"
    transcript := "hello world"
    processed_at := "t" }

theorem youtube_transcript_normalized_witness :
    get_youtube_transcript "https://youtu.be/dQw4w9WgXcQ" (fun _ => ["hello", "world"])
        "c1" "t" ⟨[], [], []⟩
      = (.ok ytWdata, ⟨[], [("c1", .yt ytWdata)], []⟩) ∧
    ((∃ vid, extractVideoId ("https://youtu.be/dQw4w9WgXcQ" : String).data = some vid ∧
        ytWdata.transcript = pyNormalize (ytConcat ["hello", "world"])) ∧
      ytWdata.text_length = ytWdata.transcript.length ∧
      (⟨[], [("c1", .yt ytWdata)], []⟩ : FS).dataFiles.lookup "c1" = some (.yt ytWdata) ∧
      List.Chain' (fun x y => ¬(pyWS x = true ∧ pyWS y = true)) ytWdata.transcript.data ∧
      (∀ c ∈ ytWdata.transcript.data, pyWS c = true → c = ' ') ∧
      (∀ d, ytWdata.transcript.data.head? = some d → pyWS d = false) ∧
      (∀ d, ytWdata.transcript.data.getLast? = some d → pyWS d = false)) :=
  have h : get_youtube_transcript "https://youtu.be/dQw4w9WgXcQ" (fun _ => ["hello", "world"])
      "c1" "t" ⟨[], [], []⟩ = (.ok ytWdata, ⟨[], [("c1", .yt ytWdata)], []⟩) := by rfl
  ⟨h, youtube_transcript_normalized "https://youtu.be/dQw4w9WgXcQ"
    (fun _ => ["hello", "world"]) "c1" "t" ⟨[], [], []⟩ ytWdata
    ⟨[], [("c1", .yt ytWdata)], []⟩ h⟩

/-! ## C5: the no-id path, and C8: metadata fields -/

/-- C5 refuted (code bug): for a youtube.com URL with no extractable
11-character id the operation does not reach a not-found outcome: since
`final_transcript` is assigned only inside `if v_id:`, the trailing
`return final_transcript` raises `UnboundLocalError`, which the handler's
classifier maps to HTTP 500. The other half of the claim holds: a URL
with an extractable id whose fetch returns no snippets yields the 404
with no record persisted. In both runs the state is unchanged. -/
theorem youtube_no_id_unbound_local :
    extractVideoId ("https://www.youtube.com/feed/trending" : String).data = none ∧
    get_youtube_transcript "https://www.youtube.com/feed/trending"
        (fun _ => ["hello"]) "c2" "t" ⟨[], [], []⟩
      = (.httpError 500 ("Error extracting transcript: " ++ unboundLocalMsg),
          ⟨[], [], []⟩) ∧
    get_youtube_transcript "https://youtu.be/dQw4w9WgXcQ" (fun _ => []) "c2" "t"
        ⟨[], [], []⟩
      = (.httpError 404
          "No transcript available for this video. The video may not have captions or transcripts enabled.",
          ⟨[], [], []⟩) :=
  ⟨rfl, rfl, rfl⟩

/-- A readable one-page document whose `reader.metadata` is `None`. -/
def docNoMeta : PdfDoc :=
  { openErr := none, pages := [.ok "x" []], metadata := none, path := "n.pdf" }

/-- C8 counterexample: for a readable document with `reader.metadata`
falsy, `pdf_info` contains `num_pages` but no `title` entry at all — in
particular `title` is not present with the value `"Unknown"`. -/
theorem get_pdf_info_no_metadata_counterexample :
    (get_pdf_info docNoMeta).lookup "num_pages" = some (.nat 1) ∧
    (get_pdf_info docNoMeta).lookup "title" = none ∧
    ∀ v, (get_pdf_info docNoMeta).lookup "title" ≠ some (.str v) := by
  refine ⟨rfl, rfl, ?_⟩
  intro v h
  rw [show (get_pdf_info docNoMeta).lookup "title" = none from rfl] at h
  exact Option.noConfusion h

/-- C8 amended: `pdf_info` always contains `num_pages`; when the
metadata object is truthy (present and non-empty) it also contains title,
author, producer, creation_date and modification_date, each equal to
`metadata.get(key, "Unknown")`, so an individually absent entry surfaces
as `"Unknown"`. When the metadata object is falsy these keys are absent
altogether. -/
theorem get_pdf_info_metadata_fields (doc : PdfDoc) (md : List (String × String))
    (hmd : doc.metadata = some md) (hne : md ≠ []) :
    (get_pdf_info doc).lookup "num_pages" = some (.nat doc.pages.length) ∧
    (get_pdf_info doc).lookup "title" = some (.str (mdLookup md "/Title")) ∧
    (get_pdf_info doc).lookup "author" = some (.str (mdLookup md "/Author")) ∧
    (get_pdf_info doc).lookup "producer" = some (.str (mdLookup md "/Producer")) ∧
    (get_pdf_info doc).lookup "creation_date"
      = some (.str (mdLookup md "/CreationDate")) ∧
    (get_pdf_info doc).lookup "modification_date"
      = some (.str (mdLookup md "/ModDate")) ∧
    (∀ k, md.lookup k = none → mdLookup md k = "Unknown") := by
  have hinfo : get_pdf_info doc =
      [("file_path", InfoVal.str doc.path),
       ("num_pages", InfoVal.nat doc.pages.length)] ++
      [("title", InfoVal.str (mdLookup md "/Title")),
       ("author", InfoVal.str (mdLookup md "/Author")),
       ("subject", InfoVal.str (mdLookup md "/Subject")),
       ("creator", InfoVal.str (mdLookup md "/Creator")),
       ("producer", InfoVal.str (mdLookup md "/Producer")),
       ("creation_date", InfoVal.str (mdLookup md "/CreationDate")),
       ("modification_date", InfoVal.str (mdLookup md "/ModDate"))] := by
    unfold get_pdf_info
    rw [hmd]
    dsimp only
    rw [if_neg hne]
  rw [hinfo]
  refine ⟨rfl, rfl, rfl, rfl, rfl, rfl, ?_⟩
  intro k hk
  unfold mdLookup
  rw [hk]
  rfl

/-- A readable document whose metadata holds only a title. -/
def docMeta : PdfDoc :=
  { openErr := none, pages := [.ok "x" []],
    metadata := some [("/Title", "T1")], path := "m.pdf" }

theorem get_pdf_info_metadata_fields_witness :
    docMeta.metadata = some [("/Title", "T1")] ∧
    ([("/Title", "T1")] : List (String × String)) ≠ [] ∧
    ((get_pdf_info docMeta).lookup "num_pages"
        = some (.nat docMeta.pages.length) ∧
      (get_pdf_info docMeta).lookup "title"
        = some (.str (mdLookup [("/Title", "T1")] "/Title")) ∧
      (get_pdf_info docMeta).lookup "author"
        = some (.str (mdLookup [("/Title", "T1")] "/Author")) ∧
      (get_pdf_info docMeta).lookup "producer"
        = some (.str (mdLookup [("/Title", "T1")] "/Producer")) ∧
      (get_pdf_info docMeta).lookup "creation_date"
        = some (.str (mdLookup [("/Title", "T1")] "/CreationDate")) ∧
      (get_pdf_info docMeta).lookup "modification_date"
        = some (.str (mdLookup [("/Title", "T1")] "/ModDate")) ∧
      (∀ k, ([("/Title", "T1")] : List (String × String)).lookup k = none →
        mdLookup [("/Title", "T1")] k = "Unknown")) :=
  ⟨rfl, by simp,
    get_pdf_info_metadata_fields docMeta [("/Title", "T1")] rfl (by simp)⟩

end VibeLearning
